import Mathlib

/-!
Shallow embedding of `datafunctions/datafunctions.py`: a decorator that
binds raw positional/keyword call arguments against a typed function
signature, converts them through a schema derived from the type
annotations, calls the function, and converts the result back.

The external schema engine (marshmallow) and the Python call binder
(`inspect.Signature.bind`) are modelled by executable Lean functions whose
behavior on the simple field types follows the engine's documented
behavior as exercised by the repository's own test-suite
(`tests/test_datafunctions.py`).
-/

namespace Datafunctions

/-- Raw/structured values crossing the decorator boundary: the subset of
Python values needed for the simple field types (None, int, str). -/
inductive Value where
  | vnone
  | vint (n : Int)
  | vstr (s : String)
deriving DecidableEq, Repr

/-- Parameter kinds of `inspect.Parameter`. -/
inductive ParamKind where
  | posOnly
  | posOrKw
  | kwOnly
  | varPos
  | varKw
deriving DecidableEq, Repr

/-- The name Python's `inspect` module gives each parameter kind. -/
def ParamKind.pyName : ParamKind → String
  | .posOnly => "POSITIONAL_ONLY"
  | .posOrKw => "POSITIONAL_OR_KEYWORD"
  | .kwOnly => "KEYWORD_ONLY"
  | .varPos => "VAR_POSITIONAL"
  | .varKw => "VAR_KEYWORD"

/-- Type descriptors produced by the type resolver (`get_type_hints`):
the simple types exercised by the claims, plus `NoneType` (the resolved
form of a `-> None` annotation). -/
inductive FieldType where
  | fInt
  | fStr
  | fNone
deriving DecidableEq, Repr

/-- Python exception classes that can arise in the modelled flows,
each carrying its message. -/
inductive PyError where
  | typeError (msg : String)
  | validationError (msg : String)
  | valueError (msg : String)
  | keyError (msg : String)
  | attributeError (msg : String)
  | indexError (msg : String)
deriving DecidableEq, Repr

/-- One declared parameter: name, kind, optional declared default, and
the resolved type annotation if present (`none` = unannotated). -/
structure Param where
  name : String
  kind : ParamKind
  default : Option Value
  hint : Option FieldType
deriving DecidableEq, Repr

/-- The underlying callable plus its introspectable metadata: declared
name, ordered parameter list, resolved return annotation (`none` =
missing), and the body, which Python always receives as keyword
arguments (`self.func(**data)` in `datafunction.__call__`). -/
structure PyFunc where
  name : String
  params : List Param
  returnHint : Option FieldType
  body : List (String × Value) → Value

/-- Dictionary lookup in an association list (first binding wins, as in
a Python dict built left to right). -/
def lookupVal : List (String × Value) → String → Option Value
  | [], _ => none
  | (k, v) :: rest, n => if k = n then some v else lookupVal rest n

/-- Python `str(value)` on the modelled values. -/
def pyStr : Value → String
  | .vnone => "None"
  | .vint n => toString n
  | .vstr s => s

/-- Digit accumulator for `pyIntOfString` (a plain left fold kept
structurally recursive so it evaluates inside the kernel). -/
def pyDigitsAux : List Char → Nat → Option Nat
  | [], acc => some acc
  | c :: cs, acc =>
      if c.isDigit then pyDigitsAux cs (acc * 10 + (c.toNat - 48))
      else none

/-- Python `int(s)` on a string: an optional minus sign followed by one
or more digits; anything else (as `int("abc")` and `int("3.5")`) is
rejected.  (The less common forms Python also accepts — surrounding
whitespace, a plus sign, underscores — are outside the model.) -/
def pyIntOfString (s : String) : Option Int :=
  match s.data with
  | [] => none
  | '-' :: rest =>
      match rest with
      | [] => none
      | _ => (pyDigitsAux rest 0).map (fun n => -(n : Int))
  | cs => (pyDigitsAux cs 0).map (fun n => (n : Int))

/-- Deserialization of one marshmallow field (`Field.deserialize` via
`Schema.load`): `Integer` accepts ints and numeric strings and rejects
everything else with "Not a valid integer."; `String` accepts only
strings; `None` values are rejected with "Field may not be null.".
Every failure is a marshmallow `ValidationError`, as in the test
`test_argument_validation`. -/
def fieldLoad : FieldType → Value → Except PyError Value
  | .fInt, .vint n => .ok (.vint n)
  | .fInt, .vstr s =>
      match pyIntOfString s with
      | some n => .ok (.vint n)
      | none => .error (.validationError "Not a valid integer.")
  | .fInt, .vnone => .error (.validationError "Field may not be null.")
  | .fStr, .vstr s => .ok (.vstr s)
  | .fStr, _ => .error (.validationError "Not a valid string.")
  | .fNone, .vnone => .ok .vnone
  | .fNone, _ => .error (.validationError "Field may not be null.")

/-- Serialization of one marshmallow field (`Field.serialize` via
`Schema.dump`): fields serialize `None` to `None`; `Integer` applies
Python `int(value)`, so a non-numeric string raises a `ValueError`
(test `test_argument_validation`: cause "invalid literal for int()");
`String` applies `str(value)` and never fails. -/
def fieldDump : FieldType → Value → Except PyError Value
  | _, .vnone => .ok .vnone
  | .fInt, .vint n => .ok (.vint n)
  | .fInt, .vstr s =>
      match pyIntOfString s with
      | some n => .ok (.vint n)
      | none => .error (.valueError ("invalid literal for int() with base 10: " ++ s))
  | .fStr, v => .ok (.vstr (pyStr v))
  | .fNone, v => .ok (.vstr (pyStr v))

/-- Schema load (`Schema.load` on a dict, all fields required, unknown
keys rejected): reject an unknown key, then deserialize each declared
field in order, requiring its key to be present.  Every error a schema
load can produce is a `ValidationError` (marshmallow collects field
errors into one `ValidationError`; this model reports the first).
`loadFields` is the per-field loop, `schemaLoad` the full operation. -/
def loadFields (data : List (String × Value)) :
    List (String × FieldType) → Except PyError (List (String × Value))
  | [] => .ok []
  | f :: rest =>
      match lookupVal data f.1 with
      | none => .error (.validationError ("Missing data for required field " ++ f.1))
      | some v =>
          match fieldLoad f.2 v with
          | .error e => .error e
          | .ok sv =>
              match loadFields data rest with
              | .error e => .error e
              | .ok tail => .ok ((f.1, sv) :: tail)

def schemaLoad (fields : List (String × FieldType)) (data : List (String × Value)) :
    Except PyError (List (String × Value)) :=
  match data.find? (fun kv => (fields.find? (fun f => f.1 == kv.1)).isNone) with
  | some kv => .error (.validationError ("Unknown field " ++ kv.1))
  | none => loadFields data fields

/-- Schema dump (`Schema.dump` on a dict): serialize each declared field
in order, omitting a field whose key is absent (marshmallow's `missing`)
and ignoring unknown keys; serialization errors propagate unchanged
(marshmallow does not validate on dump). -/
def schemaDump (fields : List (String × FieldType)) (data : List (String × Value)) :
    Except PyError (List (String × Value)) :=
  match fields with
  | [] => .ok []
  | f :: rest =>
      match lookupVal data f.1 with
      | none => schemaDump rest data
      | some v =>
          match fieldDump f.2 v with
          | .error e => .error e
          | .ok d =>
              match schemaDump rest data with
              | .error e => .error e
              | .ok tail => .ok ((f.1, d) :: tail)

/-! The signature binder (`inspect.Signature.bind` + `apply_defaults`).
Variadic kinds never survive wrapper construction (the constructor
rejects them, see `mkDatafunction`), so the binder models the three
non-variadic kinds and reports a binding `TypeError` on a variadic
parameter. -/

/-- Positional phase of `Signature.bind`: assign the given positional
values to the leading parameters in declaration order.  A positional
value landing on a keyword-only parameter (or past the end of the list)
is "too many positional arguments"; a positional-or-keyword parameter
that is also named in the keyword arguments is "multiple values".
Returns the bindings made and the remaining (unfilled) parameters. -/
def bindPos : List Param → List Value → List (String × Value) →
    Except PyError (List (String × Value) × List Param)
  | ps, [], _ => .ok ([], ps)
  | [], _ :: _, _ => .error (.typeError "too many positional arguments")
  | p :: ps, a :: rest, kwargs =>
      match p.kind with
      | .posOnly =>
          match bindPos ps rest kwargs with
          | .error e => .error e
          | .ok (m, r) => .ok ((p.name, a) :: m, r)
      | .posOrKw =>
          if (lookupVal kwargs p.name).isSome then
            .error (.typeError ("multiple values for argument " ++ p.name))
          else
            match bindPos ps rest kwargs with
            | .error e => .error e
            | .ok (m, r) => .ok ((p.name, a) :: m, r)
      | .kwOnly => .error (.typeError "too many positional arguments")
      | k => .error (.typeError ("binder does not support parameter kind " ++ k.pyName))

/-- Keyword phase of `Signature.bind`: walk the remaining parameters in
declaration order; a parameter named in the keyword arguments is bound
(a positional-only one may not be), an unnamed one without a default is
"missing a required argument".  Returns the bindings made (declaration
order) and the consumed keyword names. -/
def bindKw : List Param → List (String × Value) →
    Except PyError (List (String × Value) × List String)
  | [], _ => .ok ([], [])
  | p :: ps, kwargs =>
      match p.kind with
      | .varPos => .error (.typeError ("binder does not support parameter kind " ++ ParamKind.pyName .varPos))
      | .varKw => .error (.typeError ("binder does not support parameter kind " ++ ParamKind.pyName .varKw))
      | .posOnly =>
          match lookupVal kwargs p.name with
          | some _ => .error (.typeError ("positional-only argument passed as keyword: " ++ p.name))
          | none =>
              if p.default.isSome then bindKw ps kwargs
              else .error (.typeError ("missing a required argument: " ++ p.name))
      | _ =>
          match lookupVal kwargs p.name with
          | some v =>
              match bindKw ps kwargs with
              | .error e => .error e
              | .ok (m, used) => .ok ((p.name, v) :: m, p.name :: used)
          | none =>
              if p.default.isSome then bindKw ps kwargs
              else .error (.typeError ("missing a required argument: " ++ p.name))

/-- `Signature.bind(*args, **kwargs)`: positional phase, keyword phase,
then reject any keyword argument that no parameter consumed.  The
resulting bound mapping lists the bound parameters in declaration order
and omits unfilled defaulted parameters (no `apply_defaults` yet). -/
def bindCall (params : List Param) (args : List Value) (kwargs : List (String × Value)) :
    Except PyError (List (String × Value)) :=
  match bindPos params args kwargs with
  | .error e => .error e
  | .ok (posBound, rest) =>
      match bindKw rest kwargs with
      | .error e => .error e
      | .ok (kwBound, used) =>
          match kwargs.find? (fun kv => ¬ used.contains kv.1) with
          | some kv => .error (.typeError ("got an unexpected keyword argument " ++ kv.1))
          | none => .ok (posBound ++ kwBound)

/-- `BoundArguments.apply_defaults`: rebuild the bound mapping in
declaration order, filling each unbound parameter from its declared
default (an unbound parameter with no default is skipped, exactly as in
CPython; `bindCall` has already rejected that case). -/
def applyDefaults (params : List Param) (bound : List (String × Value)) :
    List (String × Value) :=
  params.filterMap (fun p =>
    match lookupVal bound p.name with
    | some v => some (p.name, v)
    | none => p.default.map (fun d => (p.name, d)))

/-! Wrapper construction (`datafunction.__init__`). -/

/-- The constructed wrapper: the underlying function, the method flag,
the Hinted Parameter Set (`self.hinted_names`), the ordered fields of
the parameter schema, and the return field (`none` when the return
annotation is `NoneType`, in which case `self.return_schemas is None`). -/
structure Wrapper where
  func : PyFunc
  is_method : Bool
  hinted_names : List String
  paramsFields : List (String × FieldType)
  returnField : Option FieldType

/-- `self.hints[name]`: the resolved annotation of a parameter, or of
the return slot under the key "return" (a Python parameter can never be
literally named "return"). -/
def hintsLookup (f : PyFunc) (n : String) : Option FieldType :=
  if n = "return" then f.returnHint
  else (f.params.find? (fun p => p.name == n)).bind (fun p => p.hint)

/-- The Hinted Parameter Set: all declared parameter names, with the
first deleted when `is_method` (`del self.hinted_names[0]`, which raises
an `IndexError` on an empty list). -/
def hintedNamesOf (f : PyFunc) (is_method : Bool) : Except PyError (List String) :=
  if is_method then
    match f.params.map (fun p => p.name) with
    | [] => .error (.indexError "list assignment index out of range")
    | _ :: rest => .ok rest
  else .ok (f.params.map (fun p => p.name))

/-- Whether a parameter kind is accepted by the constructor's kind
check (`POSITIONAL_OR_KEYWORD` or `KEYWORD_ONLY`). -/
def allowedKind (k : ParamKind) : Bool :=
  k == .posOrKw || k == .kwOnly

/-- The dict comprehension building the parameter-schema fields,
`{k: self.hints[k] for k in self.hinted_names}` (a hinted name with no
annotation would be a `KeyError`; the annotation check has already run
when this executes). -/
def collectFields (f : PyFunc) : List String → Except PyError (List (String × FieldType))
  | [] => .ok []
  | n :: ns =>
      match hintsLookup f n with
      | some t =>
          match collectFields f ns with
          | .error e => .error e
          | .ok rest => .ok ((n, t) :: rest)
      | none => .error (.keyError n)

/-- `datafunction.__init__`: compute the hinted names, reject a missing
annotation on any hinted parameter or on the return slot (first loop),
reject a hinted parameter of disallowed kind (second loop), then record
the parameter-schema fields and the return field (absent when the return
annotation is `NoneType`). -/
def mkDatafunction (f : PyFunc) (is_method : Bool) : Except PyError Wrapper :=
  match hintedNamesOf f is_method with
  | .error e => .error e
  | .ok hinted =>
  match (hinted ++ ["return"]).find? (fun n => (hintsLookup f n).isNone) with
  | some n => .error (.typeError ("Missing annotation for " ++ n ++ " in function " ++ f.name))
  | none =>
  match (f.params.filter (fun p => hinted.contains p.name)).find?
      (fun p => ¬ allowedKind p.kind) with
  | some p => .error (.typeError ("Parameter " ++ p.name ++ " in function " ++ f.name ++
      " is of invalid kind: " ++ p.kind.pyName))
  | none =>
  match collectFields f hinted with
  | .error e => .error e
  | .ok fields =>
  match f.returnHint with
  | none => .error (.keyError "return")
  | some rt =>
      .ok { func := f, is_method := is_method, hinted_names := hinted,
            paramsFields := fields,
            returnField := if rt = .fNone then none else some rt }

/-! The four conversion operations and direct invocation.  An exception
escaping a `try`/`except` clause uncaught is modelled by the
`DFError.uncaught` constructor; the theorems below show it never
occurs on a constructed wrapper. -/

/-- The errors a conversion operation can surface: the two user-facing
kinds, each carrying the underlying exception as its `__cause__`, or an
exception escaping the operation uncaught. -/
inductive DFError where
  | argumentError (cause : PyError)
  | returnError (cause : PyError)
  | uncaught (e : PyError)
deriving DecidableEq, Repr

/-- `datafunction._arguments_dicts`: bind, apply defaults, and restrict
to the hinted names (a hinted name absent from the bound mapping would
be a `KeyError`; the theorems show it cannot happen).  Returns
`(hinted_arguments, all_arguments)`.  `lookupAll` is the dict
comprehension `{k: all_arguments[k] for k in self.hinted_names}`. -/
def lookupAll (all : List (String × Value)) :
    List String → Except PyError (List (String × Value))
  | [] => .ok []
  | n :: ns =>
      match lookupVal all n with
      | some v =>
          match lookupAll all ns with
          | .error e => .error e
          | .ok rest => .ok ((n, v) :: rest)
      | none => .error (.keyError n)

def arguments_dicts (w : Wrapper) (args : List Value) (kwargs : List (String × Value)) :
    Except PyError (List (String × Value) × List (String × Value)) :=
  match bindCall w.func.params args kwargs with
  | .error e => .error e
  | .ok bound =>
      match lookupAll (applyDefaults w.func.params bound) w.hinted_names with
      | .error e => .error e
      | .ok hinted => .ok (hinted, applyDefaults w.func.params bound)

/-- Python `getattr(datacls_instance, field)` on the record produced by
a schema load. -/
def getattrRec (recd : List (String × Value)) (n : String) : Except PyError Value :=
  match lookupVal recd n with
  | some v => .ok v
  | none => .error (.attributeError n)

/-- Python dict merge `{**a, **b}`: the keys of `a` in order with values
overridden by `b`, followed by the keys of `b` absent from `a`. -/
def dictMerge (a b : List (String × Value)) : List (String × Value) :=
  a.map (fun kv =>
    match lookupVal b kv.1 with
    | some v => (kv.1, v)
    | none => kv)
  ++ b.filter (fun kv => (lookupVal a kv.1).isNone)

/-- The dict comprehension
`{field: getattr(datacls_instance, field) for field in self.hinted_names}`. -/
def getattrAll (recd : List (String × Value)) :
    List String → Except PyError (List (String × Value))
  | [] => .ok []
  | n :: ns =>
      match getattrRec recd n with
      | .ok v =>
          match getattrAll recd ns with
          | .error e => .error e
          | .ok rest => .ok ((n, v) :: rest)
      | .error e => .error e

/-- Body of `datafunction.load_arguments` before its `except` clause:
bind, load the hinted subset through the parameter schema, and merge the
loaded record's fields over the full bound mapping. -/
def load_arguments_core (w : Wrapper) (args : List Value) (kwargs : List (String × Value)) :
    Except PyError (List (String × Value)) :=
  match arguments_dicts w args kwargs with
  | .error e => .error e
  | .ok (hinted, all) =>
      match schemaLoad w.paramsFields hinted with
      | .error e => .error e
      | .ok recd =>
          match getattrAll recd w.hinted_names with
          | .error e => .error e
          | .ok overrides => .ok (dictMerge all overrides)

/-- Which exceptions `load_arguments` catches:
`except (TypeError, ValidationError)`. -/
def caughtByLoadArguments : PyError → Bool
  | .typeError _ => true
  | .validationError _ => true
  | _ => false

/-- `datafunction.load_arguments`: the core with its `except` clause,
re-raising a caught `TypeError`/`ValidationError` as an `ArgumentError`
whose cause is the original exception. -/
def load_arguments (w : Wrapper) (args : List Value) (kwargs : List (String × Value)) :
    Except DFError (List (String × Value)) :=
  match load_arguments_core w args kwargs with
  | .ok r => .ok r
  | .error e =>
      if caughtByLoadArguments e then .error (.argumentError e)
      else .error (.uncaught e)

/-- `datafunction.dump_arguments`: bind, dump the hinted subset through
the parameter schema; `except Exception` turns every failure into an
`ArgumentError` with the original exception as cause. -/
def dump_arguments (w : Wrapper) (args : List Value) (kwargs : List (String × Value)) :
    Except DFError (List (String × Value)) :=
  match (match arguments_dicts w args kwargs with
        | .error e => .error e
        | .ok (hinted, _) => schemaDump w.paramsFields hinted : Except PyError (List (String × Value))) with
  | .ok r => .ok r
  | .error e => .error (.argumentError e)

/-- `datafunction.dump_result`: with no return schema, return `None`
unconditionally; otherwise dump the value wrapped in the synthetic
"_return" field (`except Exception` → `ReturnError`) and extract that
field from the result outside the `try` block. -/
def dump_result (w : Wrapper) (result : Value) : Except DFError Value :=
  match w.returnField with
  | none => .ok .vnone
  | some ft =>
      match schemaDump [("_return", ft)] [("_return", result)] with
      | .error e => .error (.returnError e)
      | .ok d =>
          match lookupVal d "_return" with
          | some v => .ok v
          | none => .error (.uncaught (.keyError "_return"))

/-- `datafunction.load_result`: with no return schema, return `None`
unconditionally; otherwise load the value wrapped in the synthetic
"_return" field (`except ValidationError` → `ReturnError`) and read the
field from the record outside the `try` block. -/
def load_result (w : Wrapper) (result : Value) : Except DFError Value :=
  match w.returnField with
  | none => .ok .vnone
  | some ft =>
      match schemaLoad [("_return", ft)] [("_return", result)] with
      | .error e =>
          match e with
          | .validationError m => .error (.returnError (.validationError m))
          | _ => .error (.uncaught e)
      | .ok recd =>
          match getattrRec recd "_return" with
          | .ok v => .ok v
          | .error e => .error (.uncaught e)

/-- `datafunction.__call__`: load the arguments, call the underlying
function with the whole resulting mapping as keyword arguments, dump the
result. -/
def dfCall (w : Wrapper) (args : List Value) (kwargs : List (String × Value)) :
    Except DFError Value :=
  match load_arguments w args kwargs with
  | .error e => .error e
  | .ok data => dump_result w (w.func.body data)

/-- Direct invocation as the spec describes it in section 4.2: load the
arguments from the raw call, invoke the underlying callable with the
resulting named arguments, dump the result (an argument failure
propagates).  Stated separately from `dfCall` so that the equivalence
between the implementation and the spec's composition is a theorem. -/
def callComposition (w : Wrapper) (args : List Value) (kwargs : List (String × Value)) :
    Except DFError Value :=
  match load_arguments w args kwargs with
  | .error e => .error e
  | .ok data => dump_result w (w.func.body data)

/-! Memoized decoration: the class is wrapped in `@lru_cache()`, so the
decorator call is a lookup-or-construct keyed by the (function identity,
method flag) pair.  `lru_cache` does not cache a raising call.  A fresh
instance-id counter records object identity: a wrapper built by an
actual construction gets a new id, a cache hit returns the stored id. -/

/-- A wrapper together with its object identity. -/
structure DFInstance where
  wrapper : Wrapper
  instId : Nat

/-- The process-wide `lru_cache` state: the memo table keyed by
(function id, method flag), and the next fresh object id. -/
structure DFCacheState where
  entries : List ((Nat × Bool) × DFInstance)
  nextId : Nat

/-- The decorator entry point `datafunction(func, is_method=...)` under
`@lru_cache()`: return the cached instance when the (function id, flag)
key is present, otherwise construct a wrapper (errors propagate and are
not cached) and store it under a fresh object id. -/
def datafunctionDecorate (funcs : Nat → PyFunc) (st : DFCacheState)
    (fid : Nat) (m : Bool) : Except PyError (DFInstance × DFCacheState) :=
  match st.entries.find? (fun e => e.1 == (fid, m)) with
  | some e => .ok (e.2, st)
  | none =>
      match mkDatafunction (funcs fid) m with
      | .error e => .error e
      | .ok w =>
          .ok (⟨w, st.nextId⟩,
               ⟨((fid, m), ⟨w, st.nextId⟩) :: st.entries, st.nextId + 1⟩)

/-- The result the spec describes for `load_arguments`: the full bound
mapping with every hinted field's value replaced by the corresponding
field of the loaded record, and every non-hinted field unchanged. -/
def replaceHinted (all : List (String × Value)) (hn : List String)
    (recd : List (String × Value)) : List (String × Value) :=
  all.map (fun kv => if kv.1 ∈ hn then (kv.1, (lookupVal recd kv.1).getD kv.2) else kv)

/-- Decidable equality for `Except` results, so the theorems can be
checked on closed inputs. -/
instance instDecEqExcept {e a : Type} [DecidableEq e] [DecidableEq a] :
    DecidableEq (Except e a)
  | .error x, .error y =>
      match decEq x y with
      | isTrue h => isTrue (by rw [h])
      | isFalse h => isFalse (fun hc => by cases hc; exact h rfl)
  | .ok x, .ok y =>
      match decEq x y with
      | isTrue h => isTrue (by rw [h])
      | isFalse h => isFalse (fun hc => by cases hc; exact h rfl)
  | .error _, .ok _ => isFalse (fun hc => by cases hc)
  | .ok _, .error _ => isFalse (fun hc => by cases hc)

/-- Whether a structured value matches the declared simple return type
(the spec's "structurally valid" input to the result round trip). -/
def structurallyValid : FieldType → Value → Bool
  | .fInt, .vint _ => true
  | .fStr, .vstr _ => true
  | .fNone, .vnone => true
  | _, _ => false

/-! Concrete example functions mirroring the repository's tests, used
to exercise the theorems on closed inputs. -/

/-- The test function `def foo(x: int, y: int = 0, z: int = 1) -> int`
from `test_default_args`. -/
def exAdd : PyFunc :=
  { name := "foo",
    params := [⟨"x", .posOrKw, none, some .fInt⟩,
               ⟨"y", .posOrKw, some (.vint 0), some .fInt⟩,
               ⟨"z", .posOrKw, some (.vint 1), some .fInt⟩],
    returnHint := some .fInt,
    body := fun data =>
      match lookupVal data "x", lookupVal data "y", lookupVal data "z" with
      | some (.vint a), some (.vint b), some (.vint c) => .vint (a + b + c)
      | _, _, _ => .vnone }

/-- The wrapper `mkDatafunction` builds for `exAdd`. -/
def exAddW : Wrapper :=
  { func := exAdd, is_method := false, hinted_names := ["x", "y", "z"],
    paramsFields := [("x", .fInt), ("y", .fInt), ("z", .fInt)],
    returnField := some .fInt }

/-- The test method `def foo(self, x: int) -> int` from
`test_unbound_method`. -/
def exMeth : PyFunc :=
  { name := "meth",
    params := [⟨"self", .posOrKw, none, none⟩,
               ⟨"x", .posOrKw, none, some .fInt⟩],
    returnHint := some .fInt,
    body := fun data =>
      match lookupVal data "x" with
      | some (.vint a) => .vint (2 * a)
      | _ => .vnone }

/-- The wrapper `mkDatafunction` builds for `exMeth` with
`is_method=True`. -/
def exMethW : Wrapper :=
  { func := exMeth, is_method := true, hinted_names := ["x"],
    paramsFields := [("x", .fInt)], returnField := some .fInt }

/-- The test function `def foo(_x: int) -> None` from
`test_returns_none` (its body returns a non-None value on purpose, to
show the result is ignored). -/
def exNoneRet : PyFunc :=
  { name := "nonereturn", params := [⟨"_x", .posOrKw, none, some .fInt⟩],
    returnHint := some .fNone, body := fun _ => .vint 99 }

/-- The wrapper `mkDatafunction` builds for `exNoneRet`. -/
def exNoneRetW : Wrapper :=
  { func := exNoneRet, is_method := false, hinted_names := ["_x"],
    paramsFields := [("_x", .fInt)], returnField := none }

/-- A function with an unannotated variadic parameter,
`def foo(*args) -> int`. -/
def exVarUnann : PyFunc :=
  { name := "vfu", params := [⟨"args", .varPos, none, none⟩],
    returnHint := some .fInt, body := fun _ => .vnone }

/-- The annotated variadic test function `def foo(*args: tuple) -> int`
from `test_invalid_parameter_kind` (the annotation modelled as a simple
type, which does not matter for the kind check). -/
def exVarAnn : PyFunc :=
  { name := "vf", params := [⟨"args", .varPos, none, some .fInt⟩],
    returnHint := some .fInt, body := fun _ => .vnone }

/-! Basic lemmas about dictionary lookup and the comprehension loops. -/

@[simp] theorem lookupVal_nil (n : String) : lookupVal [] n = none := rfl

@[simp] theorem lookupVal_cons (k : String) (v : Value)
    (rest : List (String × Value)) (n : String) :
    lookupVal ((k, v) :: rest) n = if k = n then some v else lookupVal rest n := rfl

theorem lookupVal_isSome_iff (l : List (String × Value)) (n : String) :
    (lookupVal l n).isSome ↔ n ∈ l.map Prod.fst := by
  induction l with
  | nil => simp
  | cons kv rest ih =>
      obtain ⟨k, v⟩ := kv
      by_cases h : k = n
      · subst h; simp
      · simp only [lookupVal_cons, if_neg h, List.map_cons, List.mem_cons]
        rw [ih]
        constructor
        · intro hm; exact Or.inr hm
        · rintro (hm | hm)
          · exact absurd hm.symm h
          · exact hm

theorem lookupVal_eq_none_iff (l : List (String × Value)) (n : String) :
    lookupVal l n = none ↔ n ∉ l.map Prod.fst := by
  rw [← lookupVal_isSome_iff, Option.isSome_iff_exists]
  cases lookupVal l n <;> simp

theorem lookupVal_mem (l : List (String × Value)) (n : String) (v : Value)
    (h : lookupVal l n = some v) : (n, v) ∈ l := by
  induction l with
  | nil => simp at h
  | cons kv rest ih =>
      obtain ⟨k, v'⟩ := kv
      by_cases hk : k = n
      · subst hk
        simp at h
        simp [h]
      · simp [hk] at h
        simp [ih h]

/-- An association list with distinct keys is recovered by looking up
its own keys in order. -/
theorem map_lookup_self (l : List (String × Value)) (hnd : (l.map Prod.fst).Nodup) :
    (l.map Prod.fst).map (fun n => (n, (lookupVal l n).getD Value.vnone)) = l := by
  induction l with
  | nil => simp
  | cons kv rest ih =>
      obtain ⟨k, v⟩ := kv
      simp only [List.map_cons, List.nodup_cons] at hnd
      have hk : lookupVal ((k, v) :: rest) k = some v := by simp
      simp only [List.map_cons, hk, Option.getD_some, List.cons.injEq]
      refine ⟨by trivial, ?_⟩
      have hmc : List.map (fun n => (n, (lookupVal ((k, v) :: rest) n).getD Value.vnone))
            (List.map Prod.fst rest)
          = List.map (fun n => (n, (lookupVal rest n).getD Value.vnone))
            (List.map Prod.fst rest) := by
        apply List.map_congr_left
        intro n hn
        have hne : k ≠ n := fun h => hnd.1 (h ▸ hn)
        simp [hne]
      rw [hmc, ih hnd.2]

theorem lookupAll_ok (all : List (String × Value)) :
    ∀ (names : List String) (h : List (String × Value)),
    lookupAll all names = .ok h →
    h = names.map (fun n => (n, (lookupVal all n).getD Value.vnone)) := by
  intro names
  induction names with
  | nil => intro h hh; simp [lookupAll] at hh; simp [hh.symm]
  | cons n ns ih =>
      intro h hh
      simp only [lookupAll] at hh
      cases hv : lookupVal all n with
      | none => rw [hv] at hh; exact absurd hh (by simp)
      | some v =>
          rw [hv] at hh
          cases hr : lookupAll all ns with
          | error e => rw [hr] at hh; exact absurd hh (by simp)
          | ok rest =>
              rw [hr] at hh
              simp only [Except.ok.injEq] at hh
              subst hh
              simp [hv, ih rest hr]

theorem lookupAll_total (all : List (String × Value)) (names : List String)
    (h : ∀ n ∈ names, (lookupVal all n).isSome) :
    lookupAll all names = .ok (names.map (fun n => (n, (lookupVal all n).getD Value.vnone))) := by
  induction names with
  | nil => simp [lookupAll]
  | cons n ns ih =>
      have hn := h n (by simp)
      obtain ⟨v, hv⟩ := Option.isSome_iff_exists.1 hn
      simp only [lookupAll, hv]
      rw [ih (fun m hm => h m (by simp [hm]))]
      simp [hv]

theorem getattrAll_ok (recd : List (String × Value)) :
    ∀ (names : List String) (h : List (String × Value)),
    getattrAll recd names = .ok h →
    h = names.map (fun n => (n, (lookupVal recd n).getD Value.vnone)) := by
  intro names
  induction names with
  | nil => intro h hh; simp [getattrAll] at hh; simp [hh.symm]
  | cons n ns ih =>
      intro h hh
      simp only [getattrAll, getattrRec] at hh
      cases hv : lookupVal recd n with
      | none => rw [hv] at hh; exact absurd hh (by simp)
      | some v =>
          rw [hv] at hh
          cases hr : getattrAll recd ns with
          | error e => rw [hr] at hh; exact absurd hh (by simp)
          | ok rest =>
              rw [hr] at hh
              simp only [Except.ok.injEq] at hh
              subst hh
              simp [hv, ih rest hr]

theorem getattrAll_total (recd : List (String × Value)) (names : List String)
    (h : ∀ n ∈ names, (lookupVal recd n).isSome) :
    getattrAll recd names =
      .ok (names.map (fun n => (n, (lookupVal recd n).getD Value.vnone))) := by
  induction names with
  | nil => simp [getattrAll]
  | cons n ns ih =>
      have hn := h n (by simp)
      obtain ⟨v, hv⟩ := Option.isSome_iff_exists.1 hn
      simp only [getattrAll, getattrRec, hv]
      rw [ih (fun m hm => h m (by simp [hm]))]
      simp [hv]

/-- Reading a freshly loaded record's own fields back gives the record:
`getattrAll` over exactly the record's (distinct) keys is the identity. -/
theorem getattrAll_self (recd : List (String × Value))
    (hnd : (recd.map Prod.fst).Nodup) :
    getattrAll recd (recd.map Prod.fst) = .ok recd := by
  rw [getattrAll_total recd _ (fun n hn => (lookupVal_isSome_iff recd n).2 hn)]
  rw [map_lookup_self recd hnd]

/-! Lemmas about the schema engine model. -/

/-- Every failure of a field deserialization is a `ValidationError`. -/
theorem fieldLoad_error (ft : FieldType) (v : Value) (e : PyError)
    (h : fieldLoad ft v = .error e) : ∃ m, e = .validationError m := by
  cases ft <;> cases v <;> simp [fieldLoad] at h <;> try exact ⟨_, h.symm⟩
  · revert h
    cases pyIntOfString _ <;> intro h <;> simp at h
    exact ⟨_, h.symm⟩

/-- Every failure of a schema load is a `ValidationError`. -/
theorem loadFields_error (data : List (String × Value)) :
    ∀ (fields : List (String × FieldType)) (e : PyError),
    loadFields data fields = .error e → ∃ m, e = .validationError m := by
  intro fields
  induction fields with
  | nil => intro e h; simp [loadFields] at h
  | cons f rest ih =>
      intro e h
      simp only [loadFields] at h
      cases hv : lookupVal data f.1 with
      | none => rw [hv] at h; simp at h; exact ⟨_, h.symm⟩
      | some v =>
          rw [hv] at h
          dsimp only at h
          cases hl : fieldLoad f.2 v with
          | error e' =>
              rw [hl] at h; simp at h
              exact h ▸ fieldLoad_error f.2 v e' hl
          | ok sv =>
              rw [hl] at h
              dsimp only at h
              cases hr : loadFields data rest with
              | error e' => rw [hr] at h; simp at h; exact h ▸ ih e' hr
              | ok tail => rw [hr] at h; simp at h

theorem schemaLoad_error (fields : List (String × FieldType))
    (data : List (String × Value)) (e : PyError)
    (h : schemaLoad fields data = .error e) : ∃ m, e = .validationError m := by
  simp only [schemaLoad] at h
  cases hf : data.find? (fun kv => (fields.find? (fun f => f.1 == kv.1)).isNone) with
  | some kv => rw [hf] at h; simp at h; exact ⟨_, h.symm⟩
  | none => rw [hf] at h; exact loadFields_error data fields e h

/-- A successful schema load returns a record whose attribute names are
exactly the schema's field names, in order. -/
theorem loadFields_keys (data : List (String × Value)) :
    ∀ (fields : List (String × FieldType)) (recd : List (String × Value)),
    loadFields data fields = .ok recd →
    recd.map Prod.fst = fields.map Prod.fst := by
  intro fields
  induction fields with
  | nil => intro recd h; simp [loadFields] at h; simp [h.symm]
  | cons f rest ih =>
      intro recd h
      simp only [loadFields] at h
      cases hv : lookupVal data f.1 with
      | none => rw [hv] at h; simp at h
      | some v =>
          rw [hv] at h
          dsimp only at h
          cases hl : fieldLoad f.2 v with
          | error e' => rw [hl] at h; simp at h
          | ok sv =>
              rw [hl] at h
              dsimp only at h
              cases hr : loadFields data rest with
              | error e' => rw [hr] at h; simp at h
              | ok tail =>
                  rw [hr] at h
                  simp only [Except.ok.injEq] at h
                  subst h
                  simp [ih tail hr]

theorem schemaLoad_keys (fields : List (String × FieldType))
    (data : List (String × Value)) (recd : List (String × Value))
    (h : schemaLoad fields data = .ok recd) :
    recd.map Prod.fst = fields.map Prod.fst := by
  simp only [schemaLoad] at h
  cases hf : data.find? (fun kv => (fields.find? (fun f => f.1 == kv.1)).isNone) with
  | some kv => rw [hf] at h; simp at h
  | none => rw [hf] at h; exact loadFields_keys data fields recd h

/-! Lemmas about `collectFields` and construction. -/

theorem collectFields_ok (f : PyFunc) :
    ∀ (names : List String) (fields : List (String × FieldType)),
    collectFields f names = .ok fields →
    fields = names.map (fun n => (n, (hintsLookup f n).getD FieldType.fInt)) := by
  intro names
  induction names with
  | nil => intro fields h; simp [collectFields] at h; simp [h.symm]
  | cons n ns ih =>
      intro fields h
      simp only [collectFields] at h
      cases hv : hintsLookup f n with
      | none => rw [hv] at h; simp at h
      | some t =>
          rw [hv] at h
          cases hr : collectFields f ns with
          | error e => rw [hr] at h; simp at h
          | ok rest =>
              rw [hr] at h
              simp only [Except.ok.injEq] at h
              subst h
              simp [hv, ih rest hr]

theorem collectFields_keys (f : PyFunc) (names : List String)
    (fields : List (String × FieldType)) (h : collectFields f names = .ok fields) :
    fields.map Prod.fst = names := by
  rw [collectFields_ok f names fields h]
  have hc : (Prod.fst ∘ fun n => (n, (hintsLookup f n).getD FieldType.fInt)) = id := rfl
  simp [List.map_map, hc]

/-! Lemmas about the binder. -/

/-- Every failure of the positional phase is a `TypeError`. -/
theorem bindPos_error (kwargs : List (String × Value)) :
    ∀ (as : List Value) (ps : List Param) (e : PyError),
    bindPos ps as kwargs = .error e → ∃ m, e = .typeError m := by
  intro as
  induction as with
  | nil => intro ps e h; simp [bindPos] at h
  | cons a rest ih =>
      intro ps e h
      cases ps with
      | nil => simp [bindPos] at h; exact ⟨_, h.symm⟩
      | cons p ps2 =>
          simp only [bindPos] at h
          cases hk : p.kind <;> rw [hk] at h <;> dsimp only at h
          · cases hb : bindPos ps2 rest kwargs with
            | error e2 => rw [hb] at h; simp at h; exact h ▸ ih ps2 e2 hb
            | ok pr => rw [hb] at h; obtain ⟨mm, rr⟩ := pr; simp at h
          · by_cases hl : (lookupVal kwargs p.name).isSome
            · rw [if_pos hl] at h; simp at h; exact ⟨_, h.symm⟩
            · rw [if_neg hl] at h
              cases hb : bindPos ps2 rest kwargs with
              | error e2 => rw [hb] at h; simp at h; exact h ▸ ih ps2 e2 hb
              | ok pr => rw [hb] at h; obtain ⟨mm, rr⟩ := pr; simp at h
          · simp at h; exact ⟨_, h.symm⟩
          · simp at h; exact ⟨_, h.symm⟩
          · simp at h; exact ⟨_, h.symm⟩

/-- A successful positional phase splits the parameter list into a
consumed prefix (whose names are the bound names, in order) and the
remaining parameters. -/
theorem bindPos_ok (kwargs : List (String × Value)) :
    ∀ (as : List Value) (ps : List Param) (m : List (String × Value)) (r : List Param),
    bindPos ps as kwargs = .ok (m, r) →
    ∃ pre, ps = pre ++ r ∧ m.map Prod.fst = pre.map Param.name := by
  intro as
  induction as with
  | nil =>
      intro ps m r h
      simp [bindPos] at h
      exact ⟨[], by simp [h.1.symm, h.2.symm]⟩
  | cons a rest ih =>
      intro ps m r h
      cases ps with
      | nil => simp [bindPos] at h
      | cons p ps2 =>
          simp only [bindPos] at h
          cases hk : p.kind <;> rw [hk] at h <;> dsimp only at h
          · cases hb : bindPos ps2 rest kwargs with
            | error e2 => rw [hb] at h; simp at h
            | ok pr =>
                rw [hb] at h
                obtain ⟨mm, rr⟩ := pr
                simp only [Except.ok.injEq, Prod.mk.injEq] at h
                obtain ⟨hm, hr⟩ := h
                obtain ⟨pre, hps, hnames⟩ := ih ps2 mm rr hb
                exact ⟨p :: pre, by simp [hps, hr.symm], by simp [hm.symm, hnames]⟩
          · by_cases hl : (lookupVal kwargs p.name).isSome
            · rw [if_pos hl] at h; simp at h
            · rw [if_neg hl] at h
              cases hb : bindPos ps2 rest kwargs with
              | error e2 => rw [hb] at h; simp at h
              | ok pr =>
                  rw [hb] at h
                  obtain ⟨mm, rr⟩ := pr
                  simp only [Except.ok.injEq, Prod.mk.injEq] at h
                  obtain ⟨hm, hr⟩ := h
                  obtain ⟨pre, hps, hnames⟩ := ih ps2 mm rr hb
                  exact ⟨p :: pre, by simp [hps, hr.symm], by simp [hm.symm, hnames]⟩
          · simp at h
          · simp at h
          · simp at h

/-- Every failure of the keyword phase is a `TypeError`. -/
theorem bindKw_error (kwargs : List (String × Value)) :
    ∀ (ps : List Param) (e : PyError),
    bindKw ps kwargs = .error e → ∃ m, e = .typeError m := by
  intro ps
  induction ps with
  | nil => intro e h; simp [bindKw] at h
  | cons p ps2 ih =>
      intro e h
      simp only [bindKw] at h
      cases hk : p.kind <;> rw [hk] at h <;> dsimp only at h
      · cases hl : lookupVal kwargs p.name with
        | some v => rw [hl] at h; simp at h; exact ⟨_, h.symm⟩
        | none =>
            rw [hl] at h; dsimp only at h
            by_cases hd : p.default.isSome
            · rw [if_pos hd] at h; exact ih e h
            · rw [if_neg hd] at h; simp at h; exact ⟨_, h.symm⟩
      · cases hl : lookupVal kwargs p.name with
        | some v =>
            rw [hl] at h; dsimp only at h
            cases hb : bindKw ps2 kwargs with
            | error e2 => rw [hb] at h; simp at h; exact h ▸ ih e2 hb
            | ok pr => rw [hb] at h; obtain ⟨mm, uu⟩ := pr; simp at h
        | none =>
            rw [hl] at h; dsimp only at h
            by_cases hd : p.default.isSome
            · rw [if_pos hd] at h; exact ih e h
            · rw [if_neg hd] at h; simp at h; exact ⟨_, h.symm⟩
      · cases hl : lookupVal kwargs p.name with
        | some v =>
            rw [hl] at h; dsimp only at h
            cases hb : bindKw ps2 kwargs with
            | error e2 => rw [hb] at h; simp at h; exact h ▸ ih e2 hb
            | ok pr => rw [hb] at h; obtain ⟨mm, uu⟩ := pr; simp at h
        | none =>
            rw [hl] at h; dsimp only at h
            by_cases hd : p.default.isSome
            · rw [if_pos hd] at h; exact ih e h
            · rw [if_neg hd] at h; simp at h; exact ⟨_, h.symm⟩
      · simp at h; exact ⟨_, h.symm⟩
      · simp at h; exact ⟨_, h.symm⟩

/-- After a successful keyword phase every remaining parameter is
either bound or defaulted, and the consumed keyword names are exactly
the names bound in this phase. -/
theorem bindKw_ok (kwargs : List (String × Value)) :
    ∀ (ps : List Param) (m : List (String × Value)) (used : List String),
    bindKw ps kwargs = .ok (m, used) →
    (∀ p ∈ ps, p.name ∈ m.map Prod.fst ∨ p.default.isSome) ∧
    used = m.map Prod.fst ∧
    (∀ q ∈ m, lookupVal kwargs q.1 = some q.2) := by
  intro ps
  induction ps with
  | nil =>
      intro m used h
      simp [bindKw] at h
      obtain ⟨hm, hu⟩ := h
      subst hm; subst hu
      exact ⟨by simp, by simp, by simp⟩
  | cons p ps2 ih =>
      intro m used h
      simp only [bindKw] at h
      cases hk : p.kind <;> rw [hk] at h <;> dsimp only at h
      · cases hl : lookupVal kwargs p.name with
        | some v => rw [hl] at h; simp at h
        | none =>
            rw [hl] at h; dsimp only at h
            by_cases hd : p.default.isSome
            · rw [if_pos hd] at h
              obtain ⟨hcov, hused, hmem⟩ := ih m used h
              exact ⟨by
                intro q hq
                rcases List.mem_cons.1 hq with hq | hq
                · exact Or.inr (hq ▸ hd)
                · exact hcov q hq, hused, hmem⟩
            · rw [if_neg hd] at h; simp at h
      · cases hl : lookupVal kwargs p.name with
        | some v =>
            rw [hl] at h; dsimp only at h
            cases hb : bindKw ps2 kwargs with
            | error e2 => rw [hb] at h; simp at h
            | ok pr =>
                rw [hb] at h
                obtain ⟨mm, uu⟩ := pr
                simp only [Except.ok.injEq, Prod.mk.injEq] at h
                obtain ⟨hm, hu⟩ := h
                obtain ⟨hcov, hused, hmem⟩ := ih mm uu hb
                subst hm; subst hu
                refine ⟨?_, by simp [hused], ?_⟩
                · intro q hq
                  rcases List.mem_cons.1 hq with hq | hq
                  · subst hq; exact Or.inl (by simp)
                  · rcases hcov q hq with hc | hc
                    · exact Or.inl (by simp [hc])
                    · exact Or.inr hc
                · intro q hq
                  rcases List.mem_cons.1 hq with hq | hq
                  · subst hq; exact hl
                  · exact hmem q hq
        | none =>
            rw [hl] at h; dsimp only at h
            by_cases hd : p.default.isSome
            · rw [if_pos hd] at h
              obtain ⟨hcov, hused, hmem⟩ := ih m used h
              exact ⟨by
                intro q hq
                rcases List.mem_cons.1 hq with hq | hq
                · exact Or.inr (hq ▸ hd)
                · exact hcov q hq, hused, hmem⟩
            · rw [if_neg hd] at h; simp at h
      · cases hl : lookupVal kwargs p.name with
        | some v =>
            rw [hl] at h; dsimp only at h
            cases hb : bindKw ps2 kwargs with
            | error e2 => rw [hb] at h; simp at h
            | ok pr =>
                rw [hb] at h
                obtain ⟨mm, uu⟩ := pr
                simp only [Except.ok.injEq, Prod.mk.injEq] at h
                obtain ⟨hm, hu⟩ := h
                obtain ⟨hcov, hused, hmem⟩ := ih mm uu hb
                subst hm; subst hu
                refine ⟨?_, by simp [hused], ?_⟩
                · intro q hq
                  rcases List.mem_cons.1 hq with hq | hq
                  · subst hq; exact Or.inl (by simp)
                  · rcases hcov q hq with hc | hc
                    · exact Or.inl (by simp [hc])
                    · exact Or.inr hc
                · intro q hq
                  rcases List.mem_cons.1 hq with hq | hq
                  · subst hq; exact hl
                  · exact hmem q hq
        | none =>
            rw [hl] at h; dsimp only at h
            by_cases hd : p.default.isSome
            · rw [if_pos hd] at h
              obtain ⟨hcov, hused, hmem⟩ := ih m used h
              exact ⟨by
                intro q hq
                rcases List.mem_cons.1 hq with hq | hq
                · exact Or.inr (hq ▸ hd)
                · exact hcov q hq, hused, hmem⟩
            · rw [if_neg hd] at h; simp at h
      · simp at h
      · simp at h

/-- Every failure of `Signature.bind` is a `TypeError`. -/
theorem bindCall_error (params : List Param) (args : List Value)
    (kwargs : List (String × Value)) (e : PyError)
    (h : bindCall params args kwargs = .error e) : ∃ m, e = .typeError m := by
  simp only [bindCall] at h
  cases hp : bindPos params args kwargs with
  | error e2 => rw [hp] at h; simp at h; exact h ▸ bindPos_error kwargs args params e2 hp
  | ok pr =>
      rw [hp] at h
      obtain ⟨posBound, rest⟩ := pr
      dsimp only at h
      cases hkb : bindKw rest kwargs with
      | error e2 => rw [hkb] at h; simp at h; exact h ▸ bindKw_error kwargs rest e2 hkb
      | ok pr2 =>
          rw [hkb] at h
          obtain ⟨kwBound, used⟩ := pr2
          dsimp only at h
          cases hf : kwargs.find? (fun kv => ¬ used.contains kv.1) with
          | some kv => rw [hf] at h; simp at h; exact ⟨_, h.symm⟩
          | none => rw [hf] at h; simp at h

/-- After a successful bind, every declared parameter is either bound
or has a declared default. -/
theorem bindCall_ok_covers (params : List Param) (args : List Value)
    (kwargs : List (String × Value)) (bound : List (String × Value))
    (h : bindCall params args kwargs = .ok bound) :
    ∀ p ∈ params, p.name ∈ bound.map Prod.fst ∨ p.default.isSome := by
  simp only [bindCall] at h
  cases hp : bindPos params args kwargs with
  | error e2 => rw [hp] at h; simp at h
  | ok pr =>
      rw [hp] at h
      obtain ⟨posBound, rest⟩ := pr
      dsimp only at h
      cases hkb : bindKw rest kwargs with
      | error e2 => rw [hkb] at h; simp at h
      | ok pr2 =>
          rw [hkb] at h
          obtain ⟨kwBound, used⟩ := pr2
          dsimp only at h
          cases hf : kwargs.find? (fun kv => ¬ used.contains kv.1) with
          | some kv => rw [hf] at h; simp at h
          | none =>
              rw [hf] at h
              simp only [Except.ok.injEq] at h
              subst h
              obtain ⟨pre, hps, hnames⟩ := bindPos_ok kwargs args params posBound rest hp
              obtain ⟨hcov, _, _⟩ := bindKw_ok kwargs rest kwBound used hkb
              intro p hp2
              rw [hps] at hp2
              rcases List.mem_append.1 hp2 with hmem | hmem
              · left
                rw [List.map_append, List.mem_append]
                left
                rw [hnames]
                exact List.mem_map_of_mem Param.name hmem
              · rcases hcov p hmem with hc | hc
                · left
                  rw [List.map_append, List.mem_append]
                  exact Or.inr hc
                · exact Or.inr hc

/-- Under full coverage, `apply_defaults` produces one entry per
declared parameter, in declaration order. -/
theorem applyDefaults_keys (params : List Param) (bound : List (String × Value))
    (hcov : ∀ p ∈ params, p.name ∈ bound.map Prod.fst ∨ p.default.isSome) :
    (applyDefaults params bound).map Prod.fst = params.map Param.name := by
  induction params with
  | nil => simp [applyDefaults]
  | cons p ps ih =>
      have hp := hcov p (by simp)
      have hrest := ih (fun q hq => hcov q (by simp [hq]))
      simp only [applyDefaults, List.filterMap_cons]
      cases hl : lookupVal bound p.name with
      | some v => simpa [applyDefaults] using hrest
      | none =>
          rcases hp with hp | hp
          · rw [← lookupVal_isSome_iff] at hp
            rw [hl] at hp
            simp at hp
          · obtain ⟨d, hd⟩ := Option.isSome_iff_exists.1 hp
            rw [hd]
            simpa [applyDefaults] using hrest

/-! Lemmas about wrapper construction. -/

/-- Everything a successful construction guarantees: the wrapper stores
the function and flag, its hinted names come from `hintedNamesOf`, its
schema fields from `collectFields`, every hinted name and the return
slot are annotated, every hinted parameter has an allowed kind, and the
return field reflects the `NoneType` test. -/
theorem mk_ok_elim (f : PyFunc) (m : Bool) (w : Wrapper)
    (h : mkDatafunction f m = .ok w) :
    w.func = f ∧ w.is_method = m ∧
    hintedNamesOf f m = .ok w.hinted_names ∧
    collectFields f w.hinted_names = .ok w.paramsFields ∧
    (∀ n ∈ w.hinted_names ++ ["return"], (hintsLookup f n).isSome) ∧
    (∀ p ∈ f.params, p.name ∈ w.hinted_names → allowedKind p.kind) ∧
    ∃ rt, f.returnHint = some rt ∧
      w.returnField = (if rt = FieldType.fNone then none else some rt) := by
  simp only [mkDatafunction] at h
  cases hhn : hintedNamesOf f m with
  | error e => rw [hhn] at h; simp at h
  | ok hinted =>
      rw [hhn] at h; dsimp only at h
      cases hann : (hinted ++ ["return"]).find? (fun n => (hintsLookup f n).isNone) with
      | some n => rw [hann] at h; simp at h
      | none =>
          rw [hann] at h; dsimp only at h
          cases hkind : (f.params.filter (fun p => hinted.contains p.name)).find?
              (fun p => ¬ allowedKind p.kind) with
          | some p => rw [hkind] at h; simp at h
          | none =>
              rw [hkind] at h; dsimp only at h
              cases hcf : collectFields f hinted with
              | error e => rw [hcf] at h; simp at h
              | ok fields =>
                  rw [hcf] at h; dsimp only at h
                  cases hrt : f.returnHint with
                  | none => rw [hrt] at h; simp at h
                  | some rt =>
                      rw [hrt] at h
                      simp only [Except.ok.injEq] at h
                      subst h
                      refine ⟨rfl, rfl, rfl, hcf, ?_, ?_, rt, rfl, rfl⟩
                      · intro n hn
                        have hnone := List.find?_eq_none.1 hann n hn
                        exact Option.ne_none_iff_isSome.1 (by simpa using hnone)
                      · intro p hp hmem
                        have hf : p ∈ f.params.filter (fun p => hinted.contains p.name) := by
                          simp [List.mem_filter, hp, hmem]
                        have hnone := List.find?_eq_none.1 hkind p hf
                        simpa using hnone

/-- The hinted names are a subset of the declared parameter names. -/
theorem hintedNamesOf_sub (f : PyFunc) (m : Bool) (hn : List String)
    (h : hintedNamesOf f m = .ok hn) :
    ∀ n ∈ hn, n ∈ f.params.map Param.name := by
  simp only [hintedNamesOf] at h
  cases m with
  | false =>
      simp at h
      intro n hni
      rw [← h] at hni
      exact hni
  | true =>
      simp only [if_true] at h
      cases hp : f.params.map (fun p => p.name) with
      | nil => rw [hp] at h; simp at h
      | cons n0 rest =>
          rw [hp] at h
          simp only [Except.ok.injEq] at h
          intro n hni
          rw [← h] at hni
          exact List.mem_cons_of_mem n0 hni

/-- The hinted names inherit distinctness from the parameter names. -/
theorem hintedNamesOf_nodup (f : PyFunc) (m : Bool) (hn : List String)
    (h : hintedNamesOf f m = .ok hn)
    (hnd : (f.params.map Param.name).Nodup) : hn.Nodup := by
  simp only [hintedNamesOf] at h
  cases m with
  | false =>
      simp at h
      rw [← h]
      exact hnd
  | true =>
      simp only [if_true] at h
      cases hp : f.params.map (fun p => p.name) with
      | nil => rw [hp] at h; simp at h
      | cons n0 rest =>
          rw [hp] at h
          simp only [Except.ok.injEq] at h
          have hnd2 : (List.map (fun p => p.name) f.params).Nodup := hnd
          rw [hp] at hnd2
          rw [← h]
          exact hnd2.of_cons

/-! Lemmas about the argument pipeline. -/

theorem arguments_dicts_elim (w : Wrapper) (args : List Value)
    (kwargs : List (String × Value)) (hinted all : List (String × Value))
    (h : arguments_dicts w args kwargs = .ok (hinted, all)) :
    ∃ bound, bindCall w.func.params args kwargs = .ok bound ∧
      all = applyDefaults w.func.params bound ∧
      lookupAll all w.hinted_names = .ok hinted := by
  simp only [arguments_dicts] at h
  cases hb : bindCall w.func.params args kwargs with
  | error e => rw [hb] at h; simp at h
  | ok bound =>
      rw [hb] at h; dsimp only at h
      cases hl : lookupAll (applyDefaults w.func.params bound) w.hinted_names with
      | error e => rw [hl] at h; simp at h
      | ok hinted2 =>
          rw [hl] at h
          simp only [Except.ok.injEq, Prod.mk.injEq] at h
          refine ⟨bound, rfl, h.2.symm, ?_⟩
          rw [← h.2]
          rw [h.1] at hl
          exact hl

/-- On a constructed wrapper, every hinted name can be looked up in the
defaulted bound mapping: the `KeyError` branch of `_arguments_dicts`
never runs. -/
theorem hinted_lookup_isSome (f : PyFunc) (m : Bool) (w : Wrapper)
    (hw : mkDatafunction f m = .ok w) (args : List Value)
    (kwargs : List (String × Value)) (bound : List (String × Value))
    (hb : bindCall w.func.params args kwargs = .ok bound) :
    ∀ n ∈ w.hinted_names,
      (lookupVal (applyDefaults w.func.params bound) n).isSome := by
  obtain ⟨hfunc, _, hhn, _, _, _, _⟩ := mk_ok_elim f m w hw
  intro n hn
  have hcov := bindCall_ok_covers w.func.params args kwargs bound hb
  have hkeys := applyDefaults_keys w.func.params bound hcov
  rw [lookupVal_isSome_iff, hkeys]
  have := hintedNamesOf_sub f m w.hinted_names hhn n hn
  rw [hfunc]
  exact this

/-- On a constructed wrapper, `_arguments_dicts` fails only through the
binder, with a `TypeError`. -/
theorem arguments_dicts_error (f : PyFunc) (m : Bool) (w : Wrapper)
    (hw : mkDatafunction f m = .ok w) (args : List Value)
    (kwargs : List (String × Value)) (e : PyError)
    (h : arguments_dicts w args kwargs = .error e) : ∃ s, e = .typeError s := by
  simp only [arguments_dicts] at h
  cases hb : bindCall w.func.params args kwargs with
  | error e2 =>
      rw [hb] at h; simp at h
      exact h ▸ bindCall_error w.func.params args kwargs e2 hb
  | ok bound =>
      rw [hb] at h; dsimp only at h
      rw [lookupAll_total _ _ (hinted_lookup_isSome f m w hw args kwargs bound hb)] at h
      simp at h

/-- The record of a successful parameter-schema load has exactly the
hinted names as its attributes, in order. -/
theorem recd_keys (f : PyFunc) (m : Bool) (w : Wrapper)
    (hw : mkDatafunction f m = .ok w) (hinted recd : List (String × Value))
    (hl : schemaLoad w.paramsFields hinted = .ok recd) :
    recd.map Prod.fst = w.hinted_names := by
  obtain ⟨_, _, _, hcf, _, _, _⟩ := mk_ok_elim f m w hw
  rw [schemaLoad_keys w.paramsFields hinted recd hl]
  exact collectFields_keys f w.hinted_names w.paramsFields hcf

/-- The central computation: when binding and schema load both succeed,
`load_arguments_core` returns the merged mapping, and (with distinct
parameter names) that merge is exactly `replaceHinted`. -/
theorem load_arguments_core_ok (f : PyFunc) (m : Bool) (w : Wrapper)
    (hnd : (f.params.map Param.name).Nodup)
    (hw : mkDatafunction f m = .ok w) (args : List Value)
    (kwargs : List (String × Value)) (hinted all recd : List (String × Value))
    (hd : arguments_dicts w args kwargs = .ok (hinted, all))
    (hl : schemaLoad w.paramsFields hinted = .ok recd) :
    load_arguments_core w args kwargs = .ok (replaceHinted all w.hinted_names recd) := by
  obtain ⟨hfunc, _, hhn, hcf, _, _, _⟩ := mk_ok_elim f m w hw
  have hrk : recd.map Prod.fst = w.hinted_names := recd_keys f m w hw hinted recd hl
  have hhnd : w.hinted_names.Nodup :=
    hintedNamesOf_nodup f m w.hinted_names hhn hnd
  have hga : getattrAll recd w.hinted_names = .ok recd := by
    rw [← hrk]
    exact getattrAll_self recd (by rw [hrk]; exact hhnd)
  simp only [load_arguments_core, hd, hl, hga]
  congr 1
  -- dictMerge all recd = replaceHinted all w.hinted_names recd
  obtain ⟨bound, hb, hall, hla⟩ := arguments_dicts_elim w args kwargs hinted all hd
  have hsome : ∀ n ∈ w.hinted_names, (lookupVal all n).isSome := by
    rw [hall]
    exact hinted_lookup_isSome f m w hw args kwargs bound hb
  have hfilter : recd.filter (fun kv => (lookupVal all kv.1).isNone) = [] := by
    rw [List.filter_eq_nil_iff]
    intro kv hkv
    have hk1 : kv.1 ∈ w.hinted_names := by
      rw [← hrk]
      exact List.mem_map_of_mem Prod.fst hkv
    have hs2 := hsome kv.1 hk1
    simp only [Option.isNone_iff_eq_none]
    exact Option.isSome_iff_ne_none.1 hs2
  unfold dictMerge replaceHinted
  rw [hfilter, List.append_nil]
  apply List.map_congr_left
  intro kv hkv
  by_cases hmem : kv.1 ∈ w.hinted_names
  · rw [if_pos hmem]
    have : (lookupVal recd kv.1).isSome := by
      rw [lookupVal_isSome_iff, hrk]
      exact hmem
    obtain ⟨v, hv⟩ := Option.isSome_iff_exists.1 this
    rw [hv]
    simp
  · rw [if_neg hmem]
    have : lookupVal recd kv.1 = none := by
      rw [lookupVal_eq_none_iff, hrk]
      exact hmem
    rw [this]

/-- Every failure of `load_arguments_core` on a constructed wrapper is
a `TypeError` or a `ValidationError` — exactly the classes the
`except` clause of `load_arguments` catches. -/
theorem load_arguments_core_error (f : PyFunc) (m : Bool) (w : Wrapper)
    (hw : mkDatafunction f m = .ok w) (args : List Value)
    (kwargs : List (String × Value)) (e : PyError)
    (h : load_arguments_core w args kwargs = .error e) :
    caughtByLoadArguments e := by
  simp only [load_arguments_core] at h
  cases hd : arguments_dicts w args kwargs with
  | error e2 =>
      rw [hd] at h; simp at h
      obtain ⟨s, hs⟩ := arguments_dicts_error f m w hw args kwargs e2 hd
      subst h
      rw [hs]
      rfl
  | ok pr =>
      rw [hd] at h
      obtain ⟨hinted, all⟩ := pr
      dsimp only at h
      cases hl : schemaLoad w.paramsFields hinted with
      | error e2 =>
          rw [hl] at h; simp at h
          obtain ⟨s, hs⟩ := schemaLoad_error w.paramsFields hinted e2 hl
          subst h
          rw [hs]
          rfl
      | ok recd =>
          rw [hl] at h; dsimp only at h
          have hrk : recd.map Prod.fst = w.hinted_names := recd_keys f m w hw hinted recd hl
          have hga := getattrAll_total recd w.hinted_names (by
            intro n hn
            rw [lookupVal_isSome_iff, hrk]
            exact hn)
          rw [hga] at h
          simp at h

/-! Helper lemmas for the claim theorems. -/

/-- Looking a name up in the merged mapping: a hinted name present in
the bound mapping reads from the loaded record, any other name reads
from the bound mapping unchanged. -/
theorem lookupVal_replaceHinted (hn : List String) (recd : List (String × Value)) :
    ∀ (all : List (String × Value)) (n : String),
    lookupVal (replaceHinted all hn recd) n =
      if n ∈ hn then (lookupVal all n).map (fun v => (lookupVal recd n).getD v)
      else lookupVal all n := by
  intro all
  induction all with
  | nil => intro n; simp [replaceHinted]
  | cons kv rest ih =>
      intro n
      obtain ⟨k, v⟩ := kv
      simp only [replaceHinted, List.map_cons]
      by_cases hk : k = n
      · subst hk
        by_cases hm : k ∈ hn
        · simp [hm]
        · simp [hm]
      · by_cases hm : k ∈ hn
        · simp only [if_pos hm, lookupVal_cons, if_neg hk]
          have := ih n
          simp only [replaceHinted] at this
          rw [this]
        · simp only [if_neg hm, lookupVal_cons, if_neg hk]
          have := ih n
          simp only [replaceHinted] at this
          rw [this]

/-- A dump of the one-field synthetic return record always yields the
"_return" key when it succeeds. -/
theorem schemaDump_single (n : String) (ft : FieldType) (v : Value)
    (d : List (String × Value))
    (h : schemaDump [(n, ft)] [(n, v)] = .ok d) :
    ∃ dv, fieldDump ft v = .ok dv ∧ d = [(n, dv)] := by
  simp only [schemaDump, lookupVal_cons, eq_self_iff_true, if_true] at h
  cases hfd : fieldDump ft v with
  | error e => rw [hfd] at h; simp at h
  | ok dv =>
      rw [hfd] at h
      dsimp only at h
      simp at h
      exact ⟨dv, rfl, by simp [h.symm]⟩

/-- A load of the one-field synthetic return record always yields the
"_return" attribute when it succeeds. -/
theorem schemaLoad_single_keys (n : String) (ft : FieldType) (v : Value)
    (recd : List (String × Value))
    (h : schemaLoad [(n, ft)] [(n, v)] = .ok recd) :
    ∃ sv, recd = [(n, sv)] := by
  have hk := schemaLoad_keys [(n, ft)] [(n, v)] recd h
  simp at hk
  cases recd with
  | nil => simp at hk
  | cons q tail =>
      cases tail with
      | nil =>
          obtain ⟨q1, q2⟩ := q
          simp at hk
          exact ⟨q2, by simp [hk]⟩
      | cons q2 tail2 => simp at hk

/-! Claim theorems. -/

/-- C1: for every successful `load_arguments` call whose raw arguments
bind against the parameter list (defaults applied) and whose hinted
subset passes the Parameter Schema's load, the result is the full bound
mapping with every hinted field's value replaced by the corresponding
field of the loaded record and every non-hinted field (the excluded
receiver) passed through unchanged. -/
theorem c1_load_arguments_replaces_hinted (f : PyFunc) (m : Bool) (w : Wrapper)
    (hnd : (f.params.map Param.name).Nodup)
    (hw : mkDatafunction f m = .ok w) (args : List Value)
    (kwargs : List (String × Value)) (hinted all recd : List (String × Value))
    (hd : arguments_dicts w args kwargs = .ok (hinted, all))
    (hl : schemaLoad w.paramsFields hinted = .ok recd) :
    load_arguments w args kwargs = .ok (replaceHinted all w.hinted_names recd) := by
  have hc := load_arguments_core_ok f m w hnd hw args kwargs hinted all recd hd hl
  simp only [load_arguments, hc]

theorem c1_witness :
    (exAdd.params.map Param.name).Nodup ∧
    arguments_dicts exAddW [Value.vint 3] [] =
      .ok ([("x", Value.vint 3), ("y", Value.vint 0), ("z", Value.vint 1)],
           [("x", Value.vint 3), ("y", Value.vint 0), ("z", Value.vint 1)]) ∧
    load_arguments exAddW [Value.vint 3] [] =
      .ok (replaceHinted
        [("x", Value.vint 3), ("y", Value.vint 0), ("z", Value.vint 1)]
        exAddW.hinted_names
        [("x", Value.vint 3), ("y", Value.vint 0), ("z", Value.vint 1)]) :=
  ⟨by decide, rfl,
   c1_load_arguments_replaces_hinted exAdd false exAddW (by decide) rfl
     [Value.vint 3] []
     [("x", Value.vint 3), ("y", Value.vint 0), ("z", Value.vint 1)]
     [("x", Value.vint 3), ("y", Value.vint 0), ("z", Value.vint 1)]
     [("x", Value.vint 3), ("y", Value.vint 0), ("z", Value.vint 1)]
     rfl rfl⟩

/-- C3: direct invocation of the wrapper is the composition the spec
describes: load the arguments from the raw call, invoke the underlying
callable with the resulting named arguments, dump the result. -/
theorem c3_call_is_composition (w : Wrapper) (args : List Value)
    (kwargs : List (String × Value)) :
    dfCall w args kwargs = callComposition w args kwargs := rfl

/-- C4: with a `None` return annotation no Return Schema is built, so
`dump_result` and `load_result` return the no-value sentinel for every
input without consulting it, and a direct invocation that returns at
all returns the sentinel. -/
theorem c4_none_return_sentinel (f : PyFunc) (m : Bool) (w : Wrapper)
    (hw : mkDatafunction f m = .ok w)
    (hrt : f.returnHint = some FieldType.fNone) :
    (∀ x, dump_result w x = .ok Value.vnone) ∧
    (∀ x, load_result w x = .ok Value.vnone) ∧
    (∀ args kwargs v, dfCall w args kwargs = .ok v → v = Value.vnone) := by
  obtain ⟨_, _, _, _, _, _, rt, hrt2, hrf⟩ := mk_ok_elim f m w hw
  rw [hrt] at hrt2
  simp only [Option.some.injEq] at hrt2
  rw [← hrt2] at hrf
  simp at hrf
  refine ⟨?_, ?_, ?_⟩
  · intro x
    simp only [dump_result, hrf]
  · intro x
    simp only [load_result, hrf]
  · intro args kwargs v hv
    simp only [dfCall] at hv
    cases hla : load_arguments w args kwargs with
    | error e => rw [hla] at hv; simp at hv
    | ok data =>
        rw [hla] at hv
        simp only [dump_result, hrf] at hv
        simp at hv
        exact hv.symm

theorem c4_witness :
    dump_result exNoneRetW (Value.vstr "sfoo") = .ok Value.vnone ∧
    load_result exNoneRetW (Value.vstr "sfoo") = .ok Value.vnone ∧
    dfCall exNoneRetW [Value.vint 3] [] = .ok Value.vnone :=
  ⟨(c4_none_return_sentinel exNoneRet false exNoneRetW rfl rfl).1 (Value.vstr "sfoo"),
   (c4_none_return_sentinel exNoneRet false exNoneRetW rfl rfl).2.1 (Value.vstr "sfoo"),
   by decide⟩

/-- C8: method-form decoration removes the first declared parameter
from the Hinted Parameter Set; on a successful `load_arguments` call
its bound value passes through unchanged while every hinted name takes
its value from the loaded record. -/
theorem c8_method_receiver_passthrough (f : PyFunc) (w : Wrapper)
    (p0 : Param) (rest : List Param)
    (hparams : f.params = p0 :: rest)
    (hnd : (f.params.map Param.name).Nodup)
    (hw : mkDatafunction f true = .ok w)
    (args : List Value) (kwargs : List (String × Value))
    (hinted all recd : List (String × Value))
    (hd : arguments_dicts w args kwargs = .ok (hinted, all))
    (hl : schemaLoad w.paramsFields hinted = .ok recd) :
    p0.name ∉ w.hinted_names ∧
    load_arguments w args kwargs = .ok (replaceHinted all w.hinted_names recd) ∧
    lookupVal (replaceHinted all w.hinted_names recd) p0.name = lookupVal all p0.name ∧
    (∀ n ∈ w.hinted_names, lookupVal (replaceHinted all w.hinted_names recd) n =
      lookupVal recd n) := by
  obtain ⟨hfunc, _, hhn, _, _, _, _⟩ := mk_ok_elim f true w hw
  -- the hinted names are the remaining parameters' names
  have hhn2 : w.hinted_names = rest.map Param.name := by
    simp only [hintedNamesOf, if_true, hparams] at hhn
    simp only [List.map_cons] at hhn
    simp only [Except.ok.injEq] at hhn
    rw [← hhn]
  have hnotin : p0.name ∉ w.hinted_names := by
    rw [hhn2]
    rw [hparams] at hnd
    simp only [List.map_cons, List.nodup_cons] at hnd
    exact fun hmem => hnd.1 (by simpa using hmem)
  have hcore := load_arguments_core_ok f true w hnd hw args kwargs hinted all recd hd hl
  refine ⟨hnotin, ?_, ?_, ?_⟩
  · simp only [load_arguments, hcore]
  · rw [lookupVal_replaceHinted w.hinted_names recd all p0.name, if_neg hnotin]
  · intro n hn
    rw [lookupVal_replaceHinted w.hinted_names recd all n, if_pos hn]
    obtain ⟨bound, hb, hall, _⟩ := arguments_dicts_elim w args kwargs hinted all hd
    have hsome : (lookupVal all n).isSome := by
      rw [hall]
      exact hinted_lookup_isSome f true w hw args kwargs bound hb n hn
    obtain ⟨a, ha⟩ := Option.isSome_iff_exists.1 hsome
    have hrsome : (lookupVal recd n).isSome := by
      rw [lookupVal_isSome_iff, recd_keys f true w hw hinted recd hl]
      exact hn
    obtain ⟨r, hr⟩ := Option.isSome_iff_exists.1 hrsome
    rw [ha, hr]
    simp

theorem c8_witness :
    (exMeth.params.map Param.name).Nodup ∧
    ("self" ∉ exMethW.hinted_names ∧
     load_arguments exMethW [Value.vstr "RECV", Value.vstr "3"] [] =
       .ok (replaceHinted
         [("self", Value.vstr "RECV"), ("x", Value.vstr "3")]
         exMethW.hinted_names [("x", Value.vint 3)]) ∧
     lookupVal (replaceHinted [("self", Value.vstr "RECV"), ("x", Value.vstr "3")]
         exMethW.hinted_names [("x", Value.vint 3)]) "self" =
       lookupVal [("self", Value.vstr "RECV"), ("x", Value.vstr "3")] "self" ∧
     (∀ n ∈ exMethW.hinted_names,
       lookupVal (replaceHinted [("self", Value.vstr "RECV"), ("x", Value.vstr "3")]
           exMethW.hinted_names [("x", Value.vint 3)]) n =
         lookupVal [("x", Value.vint 3)] n)) :=
  ⟨by decide,
   c8_method_receiver_passthrough exMeth exMethW
     ⟨"self", .posOrKw, none, none⟩ [⟨"x", .posOrKw, none, some .fInt⟩]
     rfl (by decide) rfl [Value.vstr "RECV", Value.vstr "3"] []
     [("x", Value.vstr "3")]
     [("self", Value.vstr "RECV"), ("x", Value.vstr "3")]
     [("x", Value.vint 3)]
     (by decide) (by decide)⟩

/-- C10: direct invocation passes the whole loaded mapping to the
underlying callable as named arguments, never positionally, so two raw
calls that load to the same name-to-value mapping invoke the callable
identically and return the same result. -/
theorem c10_keyword_only_invocation (w : Wrapper) (a1 : List Value)
    (k1 : List (String × Value)) (a2 : List Value) (k2 : List (String × Value))
    (data : List (String × Value))
    (h1 : load_arguments w a1 k1 = .ok data)
    (h2 : load_arguments w a2 k2 = .ok data) :
    dfCall w a1 k1 = dump_result w (w.func.body data) ∧
    dfCall w a1 k1 = dfCall w a2 k2 := by
  constructor
  · simp only [dfCall, h1]
  · simp only [dfCall, h1, h2]

theorem c10_witness :
    load_arguments exAddW [Value.vint 3, Value.vint 2, Value.vint 5] [] =
      .ok [("x", Value.vint 3), ("y", Value.vint 2), ("z", Value.vint 5)] ∧
    load_arguments exAddW []
        [("x", Value.vint 3), ("y", Value.vint 2), ("z", Value.vint 5)] =
      .ok [("x", Value.vint 3), ("y", Value.vint 2), ("z", Value.vint 5)] ∧
    dfCall exAddW [Value.vint 3, Value.vint 2, Value.vint 5] [] =
      dump_result exAddW
        (exAddW.func.body [("x", Value.vint 3), ("y", Value.vint 2), ("z", Value.vint 5)]) ∧
    dfCall exAddW [Value.vint 3, Value.vint 2, Value.vint 5] [] =
      dfCall exAddW [] [("x", Value.vint 3), ("y", Value.vint 2), ("z", Value.vint 5)] :=
  ⟨rfl, rfl,
   (c10_keyword_only_invocation exAddW [Value.vint 3, Value.vint 2, Value.vint 5] []
     [] [("x", Value.vint 3), ("y", Value.vint 2), ("z", Value.vint 5)]
     [("x", Value.vint 3), ("y", Value.vint 2), ("z", Value.vint 5)]
     rfl rfl).1,
   (c10_keyword_only_invocation exAddW [Value.vint 3, Value.vint 2, Value.vint 5] []
     [] [("x", Value.vint 3), ("y", Value.vint 2), ("z", Value.vint 5)]
     [("x", Value.vint 3), ("y", Value.vint 2), ("z", Value.vint 5)]
     rfl rfl).2⟩

/-- C7: decorating the same underlying function twice with the same
method flag returns the identical memoized wrapper instance (same
object identity) and leaves the cache unchanged. -/
theorem c7_decoration_memoized (funcs : Nat → PyFunc) (st st1 : DFCacheState)
    (fid : Nat) (m : Bool) (inst : DFInstance)
    (h : datafunctionDecorate funcs st fid m = .ok (inst, st1)) :
    datafunctionDecorate funcs st1 fid m = .ok (inst, st1) := by
  simp only [datafunctionDecorate] at h
  cases hf : st.entries.find? (fun e => e.1 == (fid, m)) with
  | some e =>
      rw [hf] at h
      simp only [Except.ok.injEq, Prod.mk.injEq] at h
      obtain ⟨hi, hs⟩ := h
      subst hi
      subst hs
      simp only [datafunctionDecorate, hf]
  | none =>
      rw [hf] at h
      cases hmk : mkDatafunction (funcs fid) m with
      | error e => rw [hmk] at h; simp at h
      | ok wr =>
          rw [hmk] at h
          simp only [Except.ok.injEq, Prod.mk.injEq] at h
          obtain ⟨hi, hs⟩ := h
          subst hi
          subst hs
          simp only [datafunctionDecorate]
          rw [List.find?_cons_of_pos _ (by simp)]

theorem c7_witness :
    datafunctionDecorate (fun _ => exAdd) ⟨[], 0⟩ 0 false =
      .ok (⟨exAddW, 0⟩, ⟨[((0, false), ⟨exAddW, 0⟩)], 1⟩) ∧
    datafunctionDecorate (fun _ => exAdd) ⟨[((0, false), ⟨exAddW, 0⟩)], 1⟩ 0 false =
      .ok (⟨exAddW, 0⟩, ⟨[((0, false), ⟨exAddW, 0⟩)], 1⟩) :=
  ⟨rfl, c7_decoration_memoized (fun _ => exAdd) ⟨[], 0⟩
    ⟨[((0, false), ⟨exAddW, 0⟩)], 1⟩ 0 false ⟨exAddW, 0⟩ rfl⟩

/-- C2: for every constructed wrapper and every input, each of the four
conversion operations either returns a value or fails with exactly its
designated user-facing error kind — `ArgumentError` from
`load_arguments`/`dump_arguments`, `ReturnError` from
`load_result`/`dump_result` — never any other error, and the raised
error always carries the original underlying failure as its cause. -/
theorem c2_error_taxonomy (f : PyFunc) (m : Bool) (w : Wrapper)
    (hw : mkDatafunction f m = .ok w) (args : List Value)
    (kwargs : List (String × Value)) (x : Value) :
    ((∃ r, load_arguments w args kwargs = .ok r) ∨
     (∃ c, load_arguments w args kwargs = .error (.argumentError c) ∧
       load_arguments_core w args kwargs = .error c)) ∧
    ((∃ r, dump_arguments w args kwargs = .ok r) ∨
     (∃ c, dump_arguments w args kwargs = .error (.argumentError c))) ∧
    ((∃ r, load_result w x = .ok r) ∨
     (∃ c, load_result w x = .error (.returnError c))) ∧
    ((∃ r, dump_result w x = .ok r) ∨
     (∃ c, dump_result w x = .error (.returnError c))) := by
  refine ⟨?_, ?_, ?_, ?_⟩
  · cases hc : load_arguments_core w args kwargs with
    | ok r => exact Or.inl ⟨r, by simp [load_arguments, hc]⟩
    | error e =>
        refine Or.inr ⟨e, ?_, rfl⟩
        have hcaught := load_arguments_core_error f m w hw args kwargs e hc
        simp [load_arguments, hc, hcaught]
  · simp only [dump_arguments]
    cases hd : arguments_dicts w args kwargs with
    | error e => exact Or.inr ⟨e, rfl⟩
    | ok pr =>
        obtain ⟨hinted, all⟩ := pr
        dsimp only
        cases hsd : schemaDump w.paramsFields hinted with
        | error e => exact Or.inr ⟨e, rfl⟩
        | ok r => exact Or.inl ⟨r, rfl⟩
  · simp only [load_result]
    cases hrf : w.returnField with
    | none => exact Or.inl ⟨Value.vnone, rfl⟩
    | some ft =>
        dsimp only
        cases hsl : schemaLoad [("_return", ft)] [("_return", x)] with
        | error e =>
            obtain ⟨s, hs⟩ := schemaLoad_error [("_return", ft)] [("_return", x)] e hsl
            subst hs
            exact Or.inr ⟨.validationError s, rfl⟩
        | ok recd =>
            obtain ⟨sv, hsv⟩ := schemaLoad_single_keys "_return" ft x recd hsl
            subst hsv
            exact Or.inl ⟨sv, by simp [getattrRec]⟩
  · simp only [dump_result]
    cases hrf : w.returnField with
    | none => exact Or.inl ⟨Value.vnone, rfl⟩
    | some ft =>
        dsimp only
        cases hsd : schemaDump [("_return", ft)] [("_return", x)] with
        | error e => exact Or.inr ⟨e, rfl⟩
        | ok d =>
            obtain ⟨dv, _, hd⟩ := schemaDump_single "_return" ft x d hsd
            subst hd
            exact Or.inl ⟨dv, by simp⟩

theorem c2_witness :
    (((∃ r, load_arguments exAddW [Value.vstr "abc"] [] = .ok r) ∨
      (∃ c, load_arguments exAddW [Value.vstr "abc"] [] = .error (.argumentError c) ∧
        load_arguments_core exAddW [Value.vstr "abc"] [] = .error c)) ∧
     ((∃ r, dump_arguments exAddW [Value.vstr "abc"] [] = .ok r) ∨
      (∃ c, dump_arguments exAddW [Value.vstr "abc"] [] = .error (.argumentError c))) ∧
     ((∃ r, load_result exAddW (Value.vstr "abc") = .ok r) ∨
      (∃ c, load_result exAddW (Value.vstr "abc") = .error (.returnError c))) ∧
     ((∃ r, dump_result exAddW (Value.vstr "abc") = .ok r) ∨
      (∃ c, dump_result exAddW (Value.vstr "abc") = .error (.returnError c)))) :=
  c2_error_taxonomy exAdd false exAddW rfl [Value.vstr "abc"] [] (Value.vstr "abc")

/-! Lemmas for the default-argument equivalence (claim C9). -/

theorem lookupVal_append (a b : List (String × Value)) (n : String) :
    lookupVal (a ++ b) n =
      match lookupVal a n with
      | some v => some v
      | none => lookupVal b n := by
  induction a with
  | nil => simp
  | cons kv rest ih =>
      obtain ⟨k, v⟩ := kv
      by_cases hk : k = n
      · subst hk; simp
      · simp [hk, ih]

theorem lookupVal_map_names (g : String → Value) :
    ∀ (names : List String) (k : String),
    lookupVal (names.map (fun n => (n, g n))) k =
      if k ∈ names then some (g k) else none := by
  intro names
  induction names with
  | nil => simp
  | cons n ns ih =>
      intro k
      by_cases hk : n = k
      · subst hk; simp
      · simp only [List.map_cons, lookupVal_cons, if_neg hk, ih k, List.mem_cons]
        by_cases hm : k ∈ ns
        · simp [hm]
        · have hk2 : ¬ (k = n) := fun h => hk h.symm
          simp [hm, hk2]

theorem allowedKind_elim (k : ParamKind) (h : allowedKind k) :
    k = .posOrKw ∨ k = .kwOnly := by
  cases k <;> simp_all [allowedKind]

/-- Keys produced by `apply_defaults` are declared parameter names. -/
theorem applyDefaults_keys_sub (params : List Param) (bound : List (String × Value)) :
    ∀ n ∈ (applyDefaults params bound).map Prod.fst, n ∈ params.map Param.name := by
  intro n hn
  rw [List.mem_map] at hn
  obtain ⟨kv, hkv, hfst⟩ := hn
  rw [applyDefaults, List.mem_filterMap] at hkv
  obtain ⟨q, hq, hqv⟩ := hkv
  rw [List.mem_map]
  refine ⟨q, hq, ?_⟩
  obtain ⟨k1, v1⟩ := kv
  revert hqv
  cases hl : lookupVal bound q.name with
  | some v =>
      intro hqv
      simp only [Option.some.injEq, Prod.mk.injEq] at hqv
      rw [hqv.1]
      exact hfst
  | none =>
      cases hdq : q.default with
      | some dd =>
          intro hqv
          simp only [Option.map, Option.some.injEq, Prod.mk.injEq] at hqv
          rw [hqv.1]
          exact hfst
      | none =>
          intro hqv
          simp [Option.map] at hqv

/-- With distinct parameter names, looking a declared parameter up in
the defaulted bound mapping gives its bound value, or else its declared
default. -/
theorem applyDefaults_lookup (params : List Param) (bound : List (String × Value))
    (hnd : (params.map Param.name).Nodup) (q : Param) (hq : q ∈ params) :
    lookupVal (applyDefaults params bound) q.name =
      match lookupVal bound q.name with
      | some v => some v
      | none =>
          match q.default with
          | some dd => some dd
          | none => none := by
  induction params with
  | nil => simp at hq
  | cons q0 ps ih =>
      simp only [List.map_cons, List.nodup_cons] at hnd
      by_cases hname : q0.name = q.name
      · -- the head is the unique parameter with this name, so q = q0
        have hq0 : q = q0 := by
          rcases List.mem_cons.1 hq with h | h
          · exact h
          · exact absurd (hname ▸ (List.mem_map_of_mem Param.name h)) hnd.1
        subst hq0
        simp only [applyDefaults, List.filterMap_cons]
        cases hl : lookupVal bound q.name with
        | some v => simp [hname, hl]
        | none =>
            cases hdq : q.default with
            | some dd => simp [hname, hl, hdq]
            | none =>
                simp only [hl, hdq, Option.map_none]
                rw [lookupVal_eq_none_iff]
                intro hmem
                have := applyDefaults_keys_sub ps bound q.name hmem
                rw [hname] at hnd
                exact hnd.1 this
      · have hq2 : q ∈ ps := by
          rcases List.mem_cons.1 hq with h | h
          · subst h; exact absurd rfl hname
          · exact h
        have ihq := ih hnd.2 hq2
        simp only [applyDefaults, List.filterMap_cons]
        cases hl : lookupVal bound q0.name with
        | some v => simpa [hname] using ihq
        | none =>
            cases hdq : q0.default with
            | some dd => simpa [hname] using ihq
            | none => simpa using ihq

/-- The positional phase ignores an extra keyword entry whose name is
not among the positionally bound names. -/
theorem bindPos_ext (p0 : String) (d : Value) (kwargs : List (String × Value)) :
    ∀ (as : List Value) (ps : List Param) (m : List (String × Value)) (r : List Param),
    bindPos ps as kwargs = .ok (m, r) →
    p0 ∉ m.map Prod.fst →
    bindPos ps as (kwargs ++ [(p0, d)]) = .ok (m, r) := by
  intro as
  induction as with
  | nil =>
      intro ps m r h hni
      simp [bindPos] at h
      simp [bindPos, h.1.symm, h.2.symm]
  | cons a rest ih =>
      intro ps m r h hni
      cases ps with
      | nil => simp [bindPos] at h
      | cons p ps2 =>
          simp only [bindPos] at h ⊢
          cases hk : p.kind <;> rw [hk] at h <;> dsimp only at h ⊢
          · cases hb : bindPos ps2 rest kwargs with
            | error e2 => rw [hb] at h; simp at h
            | ok pr =>
                rw [hb] at h
                obtain ⟨mm, rr⟩ := pr
                simp only [Except.ok.injEq, Prod.mk.injEq] at h
                rw [← h.1] at hni
                simp only [List.map_cons, List.mem_cons] at hni
                rw [ih ps2 mm rr hb (fun hmem => hni (Or.inr hmem))]
                simp [h.1, h.2]
          · by_cases hl : (lookupVal kwargs p.name).isSome
            · rw [if_pos hl] at h; simp at h
            · rw [if_neg hl] at h
              cases hb : bindPos ps2 rest kwargs with
              | error e2 => rw [hb] at h; simp at h
              | ok pr =>
                  rw [hb] at h
                  obtain ⟨mm, rr⟩ := pr
                  simp only [Except.ok.injEq, Prod.mk.injEq] at h
                  rw [← h.1] at hni
                  simp only [List.map_cons, List.mem_cons] at hni
                  have hne : p.name ≠ p0 := fun hc => hni (Or.inl hc.symm)
                  have hl2 : ¬ (lookupVal (kwargs ++ [(p0, d)]) p.name).isSome := by
                    rw [lookupVal_append]
                    cases hlk : lookupVal kwargs p.name with
                    | some v => rw [hlk] at hl; simp at hl
                    | none => simp [Ne.symm hne]
                  rw [if_neg hl2]
                  rw [ih ps2 mm rr hb (fun hmem => hni (Or.inr hmem))]
                  simp [h.1, h.2]
          · simp at h
          · simp at h
          · simp at h

/-- The keyword phase ignores an extra keyword entry whose name matches
no parameter. -/
theorem bindKw_ext (k : String) (v : Value) (kwargs : List (String × Value)) :
    ∀ (r : List Param), (∀ q ∈ r, q.name ≠ k) →
    bindKw r (kwargs ++ [(k, v)]) = bindKw r kwargs := by
  intro r
  induction r with
  | nil => intro _; rfl
  | cons q rest ih =>
      intro hnk
      have hq : q.name ≠ k := hnk q (by simp)
      have hrest := ih (fun q2 hq2 => hnk q2 (by simp [hq2]))
      have hlk : lookupVal (kwargs ++ [(k, v)]) q.name = lookupVal kwargs q.name := by
        rw [lookupVal_append]
        cases hl : lookupVal kwargs q.name with
        | some v2 => rfl
        | none => simp [Ne.symm hq]
      simp only [bindKw, hlk, hrest]

/-- A remaining parameter that ends up unbound after the keyword phase
was not named in the keyword arguments. -/
theorem bindKw_unbound_none (kwargs : List (String × Value)) :
    ∀ (ps : List Param) (m : List (String × Value)) (used : List String),
    bindKw ps kwargs = .ok (m, used) →
    ∀ q ∈ ps, q.name ∉ m.map Prod.fst → lookupVal kwargs q.name = none := by
  intro ps
  induction ps with
  | nil => intro m used h q hq; simp at hq
  | cons p ps2 ih =>
      intro m used h q hq hni
      simp only [bindKw] at h
      cases hk : p.kind <;> rw [hk] at h <;> dsimp only at h
      · cases hl : lookupVal kwargs p.name with
        | some v => rw [hl] at h; simp at h
        | none =>
            rw [hl] at h; dsimp only at h
            by_cases hpd : p.default.isSome
            · rw [if_pos hpd] at h
              rcases List.mem_cons.1 hq with hq | hq
              · subst hq; exact hl
              · exact ih m used h q hq hni
            · rw [if_neg hpd] at h; simp at h
      · cases hl : lookupVal kwargs p.name with
        | some v =>
            rw [hl] at h; dsimp only at h
            cases hb : bindKw ps2 kwargs with
            | error e2 => rw [hb] at h; simp at h
            | ok pr =>
                rw [hb] at h
                obtain ⟨mm, uu⟩ := pr
                simp only [Except.ok.injEq, Prod.mk.injEq] at h
                rw [← h.1] at hni
                simp only [List.map_cons, List.mem_cons] at hni
                rcases List.mem_cons.1 hq with hq | hq
                · subst hq; exact absurd (Or.inl rfl) hni
                · exact ih mm uu hb q hq (fun hmem => hni (Or.inr hmem))
        | none =>
            rw [hl] at h; dsimp only at h
            by_cases hpd : p.default.isSome
            · rw [if_pos hpd] at h
              rcases List.mem_cons.1 hq with hq | hq
              · subst hq; exact hl
              · exact ih m used h q hq hni
            · rw [if_neg hpd] at h; simp at h
      · cases hl : lookupVal kwargs p.name with
        | some v =>
            rw [hl] at h; dsimp only at h
            cases hb : bindKw ps2 kwargs with
            | error e2 => rw [hb] at h; simp at h
            | ok pr =>
                rw [hb] at h
                obtain ⟨mm, uu⟩ := pr
                simp only [Except.ok.injEq, Prod.mk.injEq] at h
                rw [← h.1] at hni
                simp only [List.map_cons, List.mem_cons] at hni
                rcases List.mem_cons.1 hq with hq | hq
                · subst hq; exact absurd (Or.inl rfl) hni
                · exact ih mm uu hb q hq (fun hmem => hni (Or.inr hmem))
        | none =>
            rw [hl] at h; dsimp only at h
            by_cases hpd : p.default.isSome
            · rw [if_pos hpd] at h
              rcases List.mem_cons.1 hq with hq | hq
              · subst hq; exact hl
              · exact ih m used h q hq hni
            · rw [if_neg hpd] at h; simp at h
      · simp at h
      · simp at h

/-- Inserting the omitted defaulted parameter's value as an extra
keyword argument makes the keyword phase bind it explicitly, leaving
every other binding unchanged. -/
theorem bindKw_insert (p : Param) (d : Value) (kwargs : List (String × Value))
    (hkind : p.kind = .posOrKw ∨ p.kind = .kwOnly) (hdef : p.default = some d)
    (hnk : lookupVal kwargs p.name = none) :
    ∀ (r : List Param) (mkw : List (String × Value)) (used : List String),
    bindKw r kwargs = .ok (mkw, used) →
    p ∈ r → (r.map Param.name).Nodup →
    ∃ mkw2 used2,
      bindKw r (kwargs ++ [(p.name, d)]) = .ok (mkw2, used2) ∧
      (∀ n, lookupVal mkw2 n = if n = p.name then some d else lookupVal mkw n) ∧
      (∀ u ∈ used, u ∈ used2) ∧ p.name ∈ used2 := by
  intro r
  induction r with
  | nil => intro mkw used h hp; simp at hp
  | cons q rest ih =>
      intro mkw used h hp hnd
      simp only [List.map_cons, List.nodup_cons] at hnd
      by_cases hqp : q.name = p.name
      · -- the head is the omitted parameter itself
        have hq : q = p := by
          rcases List.mem_cons.1 hp with hh | hh
          · exact hh.symm
          · exact absurd (hqp ▸ List.mem_map_of_mem Param.name hh) hnd.1
        subst hq
        have hrest_nk : ∀ q2 ∈ rest, q2.name ≠ q.name := by
          intro q2 hq2 hc
          exact hnd.1 (hc ▸ List.mem_map_of_mem Param.name hq2)
        have hlk2 : lookupVal (kwargs ++ [(q.name, d)]) q.name = some d := by
          rw [lookupVal_append, hnk]
          simp
        simp only [bindKw] at h ⊢
        rcases hkind with hk | hk <;> rw [hk] at h ⊢ <;> dsimp only at h ⊢ <;>
          rw [hnk] at h <;> dsimp only at h <;>
          rw [hdef] at h <;> simp only [Option.isSome_some, if_true] at h <;>
          rw [hlk2] <;> dsimp only <;>
          rw [bindKw_ext q.name d kwargs rest hrest_nk] <;>
          rw [h] <;>
          exact ⟨(q.name, d) :: mkw, q.name :: used, rfl,
            fun n => by
              by_cases hn : q.name = n
              · subst hn; simp
              · have hn2 : ¬ (n = q.name) := fun hc => hn hc.symm
                simp [hn, hn2],
            fun u hu => by simp [hu], by simp⟩
      · -- the head is a different parameter: it behaves identically
        have hp2 : p ∈ rest := by
          rcases List.mem_cons.1 hp with hh | hh
          · exact absurd (by rw [hh]) (fun hc => hqp hc)
          · exact hh
        have hlq : lookupVal (kwargs ++ [(p.name, d)]) q.name = lookupVal kwargs q.name := by
          rw [lookupVal_append]
          cases hl : lookupVal kwargs q.name with
          | some v2 => rfl
          | none =>
              have hq2 : ¬ (p.name = q.name) := fun hc => hqp hc.symm
              simp [hq2]
        simp only [bindKw] at h ⊢
        cases hk : q.kind <;> rw [hk] at h <;> dsimp only at h ⊢
        · -- positional-only head
          rw [hlq]
          cases hl : lookupVal kwargs q.name with
          | some v2 => rw [hl] at h; simp at h
          | none =>
              rw [hl] at h
              dsimp only at h ⊢
              by_cases hpd : q.default.isSome
              · rw [if_pos hpd] at h ⊢
                exact ih mkw used h hp2 hnd.2
              · rw [if_neg hpd] at h; simp at h
        · -- positional-or-keyword head
          rw [hlq]
          cases hl : lookupVal kwargs q.name with
          | some v2 =>
              rw [hl] at h
              dsimp only at h ⊢
              cases hb : bindKw rest kwargs with
              | error e2 => rw [hb] at h; simp at h
              | ok pr =>
                  rw [hb] at h
                  obtain ⟨mm, uu⟩ := pr
                  simp only [Except.ok.injEq, Prod.mk.injEq] at h
                  obtain ⟨hm, hu⟩ := h
                  obtain ⟨mkw2, used2, hb2, hlook, hsub, hmem⟩ := ih mm uu hb hp2 hnd.2
                  rw [hb2]
                  refine ⟨(q.name, v2) :: mkw2, q.name :: used2, rfl, ?_, ?_, by simp [hmem]⟩
                  · intro n
                    by_cases hn : q.name = n
                    · subst hn
                      rw [← hm]
                      simp [hqp]
                    · rw [← hm]
                      simp only [lookupVal_cons, if_neg hn]
                      exact hlook n
                  · intro u hu2
                    rw [← hu] at hu2
                    rcases List.mem_cons.1 hu2 with hh | hh
                    · simp [hh]
                    · simp [hsub u hh]
          | none =>
              rw [hl] at h
              dsimp only at h ⊢
              by_cases hpd : q.default.isSome
              · rw [if_pos hpd] at h ⊢
                exact ih mkw used h hp2 hnd.2
              · rw [if_neg hpd] at h; simp at h
        · -- keyword-only head
          rw [hlq]
          cases hl : lookupVal kwargs q.name with
          | some v2 =>
              rw [hl] at h
              dsimp only at h ⊢
              cases hb : bindKw rest kwargs with
              | error e2 => rw [hb] at h; simp at h
              | ok pr =>
                  rw [hb] at h
                  obtain ⟨mm, uu⟩ := pr
                  simp only [Except.ok.injEq, Prod.mk.injEq] at h
                  obtain ⟨hm, hu⟩ := h
                  obtain ⟨mkw2, used2, hb2, hlook, hsub, hmem⟩ := ih mm uu hb hp2 hnd.2
                  rw [hb2]
                  refine ⟨(q.name, v2) :: mkw2, q.name :: used2, rfl, ?_, ?_, by simp [hmem]⟩
                  · intro n
                    by_cases hn : q.name = n
                    · subst hn
                      rw [← hm]
                      simp [hqp]
                    · rw [← hm]
                      simp only [lookupVal_cons, if_neg hn]
                      exact hlook n
                  · intro u hu2
                    rw [← hu] at hu2
                    rcases List.mem_cons.1 hu2 with hh | hh
                    · simp [hh]
                    · simp [hsub u hh]
          | none =>
              rw [hl] at h
              dsimp only at h ⊢
              by_cases hpd : q.default.isSome
              · rw [if_pos hpd] at h ⊢
                exact ih mkw used h hp2 hnd.2
              · rw [if_neg hpd] at h; simp at h
        · simp at h
        · simp at h

/-- Pointwise-equal bound mappings give equal defaulted mappings. -/
theorem applyDefaults_ext (bound bound2 : List (String × Value)) :
    ∀ (ps : List Param),
    (∀ q ∈ ps, lookupVal bound2 q.name = lookupVal bound q.name) →
    applyDefaults ps bound2 = applyDefaults ps bound := by
  intro ps
  induction ps with
  | nil => intro _; rfl
  | cons q rest ih =>
      intro hext
      have hihr := ih (fun q2 hq2 => hext q2 (by simp [hq2]))
      simp only [applyDefaults, List.filterMap_cons] at hihr ⊢
      rw [hext q (by simp), hihr]

/-- Binding the omitted default explicitly leaves `apply_defaults`
unchanged: the explicit value is the default the omitted call would
have filled in anyway. -/
theorem applyDefaults_congr (params : List Param) (bound bound2 : List (String × Value))
    (p : Param) (d : Value)
    (hnd : (params.map Param.name).Nodup)
    (hp : p ∈ params) (hdef : p.default = some d)
    (hunb : lookupVal bound p.name = none)
    (hch : ∀ n, lookupVal bound2 n = if n = p.name then some d else lookupVal bound n) :
    applyDefaults params bound2 = applyDefaults params bound := by
  induction params with
  | nil => rfl
  | cons q rest ih =>
      simp only [List.map_cons, List.nodup_cons] at hnd
      by_cases hqp : q.name = p.name
      · have hq : q = p := by
          rcases List.mem_cons.1 hp with hh | hh
          · exact hh.symm
          · exact absurd (hqp ▸ List.mem_map_of_mem Param.name hh) hnd.1
        subst hq
        have htail : applyDefaults rest bound2 = applyDefaults rest bound := by
          apply applyDefaults_ext
          intro q2 hq2
          have hne : q2.name ≠ q.name := by
            intro hc
            exact hnd.1 (hc ▸ List.mem_map_of_mem Param.name hq2)
          rw [hch q2.name, if_neg (fun hc => hne (hqp ▸ hc))]
        simp only [applyDefaults, List.filterMap_cons] at htail ⊢
        rw [hch q.name, if_pos hqp, hunb, hdef, htail]
        rfl
      · have hp2 : p ∈ rest := by
          rcases List.mem_cons.1 hp with hh | hh
          · exact absurd (by rw [hh]) hqp
          · exact hh
        have hih := ih hnd.2 hp2
        simp only [applyDefaults, List.filterMap_cons] at hih ⊢
        rw [hch q.name, if_neg hqp, hih]

/-- Whole-bind version of the insertion argument: supplying the omitted
defaulted parameter as an extra keyword argument still binds, and the
resulting bound mapping differs only by that parameter now being bound
to its default. -/
theorem bindCall_insert (params : List Param) (args : List Value)
    (kwargs : List (String × Value)) (bound : List (String × Value))
    (p : Param) (d : Value)
    (hnd : (params.map Param.name).Nodup)
    (hp : p ∈ params)
    (hkind : p.kind = .posOrKw ∨ p.kind = .kwOnly)
    (hdef : p.default = some d)
    (hb : bindCall params args kwargs = .ok bound)
    (hunb : lookupVal bound p.name = none) :
    ∃ bound2, bindCall params args (kwargs ++ [(p.name, d)]) = .ok bound2 ∧
      (∀ n, lookupVal bound2 n = if n = p.name then some d else lookupVal bound n) := by
  simp only [bindCall] at hb
  cases hpos : bindPos params args kwargs with
  | error e => rw [hpos] at hb; simp at hb
  | ok pr =>
      rw [hpos] at hb
      obtain ⟨posBound, r⟩ := pr
      dsimp only at hb
      cases hkw : bindKw r kwargs with
      | error e => rw [hkw] at hb; simp at hb
      | ok pr2 =>
          rw [hkw] at hb
          obtain ⟨kwBound, used⟩ := pr2
          dsimp only at hb
          cases hfind : kwargs.find? (fun kv => ¬ used.contains kv.1) with
          | some kv => rw [hfind] at hb; simp at hb
          | none =>
              rw [hfind] at hb
              simp only [Except.ok.injEq] at hb
              obtain ⟨pre, hps, hnames⟩ := bindPos_ok kwargs args params posBound r hpos
              have hbname : p.name ∉ bound.map Prod.fst :=
                (lookupVal_eq_none_iff bound p.name).1 hunb
              rw [← hb] at hbname
              simp only [List.map_append, List.mem_append] at hbname
              have hppos : p.name ∉ posBound.map Prod.fst := fun hc => hbname (Or.inl hc)
              have hpkw : p.name ∉ kwBound.map Prod.fst := fun hc => hbname (Or.inr hc)
              have hpr : p ∈ r := by
                rw [hps] at hp
                rcases List.mem_append.1 hp with hh | hh
                · exact absurd (hnames ▸ List.mem_map_of_mem Param.name hh) hppos
                · exact hh
              have hrnd : (r.map Param.name).Nodup := by
                rw [hps] at hnd
                rw [List.map_append] at hnd
                exact hnd.of_append_right
              have hknone : lookupVal kwargs p.name = none :=
                bindKw_unbound_none kwargs r kwBound used hkw p hpr hpkw
              have hpos2 := bindPos_ext p.name d kwargs args params posBound r hpos hppos
              obtain ⟨mkw2, used2, hkw2, hlook, hsub, hmemp⟩ :=
                bindKw_insert p d kwargs hkind hdef hknone r kwBound used hkw hpr hrnd
              have hfind2 : (kwargs ++ [(p.name, d)]).find?
                  (fun kv => ¬ used2.contains kv.1) = none := by
                rw [List.find?_eq_none]
                intro kv hkv
                rcases List.mem_append.1 hkv with hh | hh
                · have horig := List.find?_eq_none.1 hfind kv hh
                  simp only [decide_not, Bool.not_eq_true', Bool.not_eq_false] at horig ⊢
                  have : kv.1 ∈ used := by simpa using horig
                  simpa using hsub kv.1 this
                · simp at hh
                  simp only [decide_not, Bool.not_eq_true', Bool.not_eq_false]
                  have hm2 : kv.1 ∈ used2 := by rw [hh]; exact hmemp
                  simpa using hm2
              refine ⟨posBound ++ mkw2, ?_, ?_⟩
              · simp only [bindCall, hpos2, hkw2, hfind2]
              · intro n
                rw [← hb]
                rw [lookupVal_append, lookupVal_append]
                by_cases hn : n = p.name
                · subst hn
                  have hnn : lookupVal posBound p.name = none :=
                    (lookupVal_eq_none_iff posBound p.name).2 hppos
                  simp [hnn, hlook]
                · cases hlp : lookupVal posBound n with
                  | some v => simp [hn]
                  | none => simp [hlook, hn]

/-- C9: declared defaults participate in schema conversion: a call
that omits a defaulted (hinted) parameter behaves exactly as if the
default had been supplied explicitly as a raw keyword argument, the
hinted subset carries the raw default, and the returned mapping binds
the parameter to the loaded record's (deserialized) field. -/
theorem c9_defaults_schema_converted (f : PyFunc) (m : Bool) (w : Wrapper)
    (hnd : (f.params.map Param.name).Nodup)
    (hw : mkDatafunction f m = .ok w)
    (p : Param) (hp : p ∈ f.params) (d : Value) (hdef : p.default = some d)
    (hhint : p.name ∈ w.hinted_names)
    (args : List Value) (kwargs : List (String × Value))
    (bound : List (String × Value))
    (hb : bindCall w.func.params args kwargs = .ok bound)
    (hunb : lookupVal bound p.name = none) :
    load_arguments w args kwargs = load_arguments w args (kwargs ++ [(p.name, d)]) ∧
    ∀ hinted all recd loaded,
      arguments_dicts w args kwargs = .ok (hinted, all) →
      schemaLoad w.paramsFields hinted = .ok recd →
      load_arguments w args kwargs = .ok loaded →
      lookupVal hinted p.name = some d ∧
      lookupVal loaded p.name = lookupVal recd p.name := by
  obtain ⟨hfunc, _, _, _, _, hkinds, _⟩ := mk_ok_elim f m w hw
  have hndw : (w.func.params.map Param.name).Nodup := by rw [hfunc]; exact hnd
  have hpw : p ∈ w.func.params := by rw [hfunc]; exact hp
  have hkind : p.kind = .posOrKw ∨ p.kind = .kwOnly :=
    allowedKind_elim p.kind (hkinds p hp hhint)
  obtain ⟨bound2, hb2, hch⟩ :=
    bindCall_insert w.func.params args kwargs bound p d hndw hpw hkind hdef hb hunb
  have hADeq : applyDefaults w.func.params bound2 = applyDefaults w.func.params bound :=
    applyDefaults_congr w.func.params bound bound2 p d hndw hpw hdef hunb hch
  have hsome := hinted_lookup_isSome f m w hw args kwargs bound hb
  have hdicts : arguments_dicts w args (kwargs ++ [(p.name, d)]) =
      arguments_dicts w args kwargs := by
    simp only [arguments_dicts, hb, hb2, hADeq]
  refine ⟨?_, ?_⟩
  · simp only [load_arguments, load_arguments_core, hdicts]
  · intro hinted all recd loaded hd hl hla
    -- identify the hinted subset and the full mapping
    have hAD : arguments_dicts w args kwargs =
        .ok (w.hinted_names.map
              (fun n => (n, (lookupVal (applyDefaults w.func.params bound) n).getD Value.vnone)),
             applyDefaults w.func.params bound) := by
      simp only [arguments_dicts, hb]
      rw [lookupAll_total _ _ hsome]
    rw [hAD] at hd
    simp only [Except.ok.injEq, Prod.mk.injEq] at hd
    obtain ⟨hhinted, hall⟩ := hd
    have hlookall : lookupVal (applyDefaults w.func.params bound) p.name = some d := by
      rw [applyDefaults_lookup w.func.params bound hndw p hpw, hunb, hdef]
    constructor
    · rw [← hhinted]
      rw [lookupVal_map_names _ w.hinted_names p.name]
      rw [if_pos hhint, hlookall]
      simp
    · have hcore := load_arguments_core_ok f m w hnd hw args kwargs hinted all recd
        (by rw [hAD, hhinted, hall]) hl
      have hloaded : loaded = replaceHinted all w.hinted_names recd := by
        have := hla
        rw [load_arguments, hcore] at this
        simpa using this.symm
      rw [hloaded]
      rw [lookupVal_replaceHinted w.hinted_names recd all p.name, if_pos hhint]
      have hallp : lookupVal all p.name = some d := by rw [← hall]; exact hlookall
      have hrsome : (lookupVal recd p.name).isSome := by
        rw [lookupVal_isSome_iff, recd_keys f m w hw hinted recd hl]
        exact hhint
      obtain ⟨rv, hrv⟩ := Option.isSome_iff_exists.1 hrsome
      rw [hallp, hrv]
      simp

theorem c9_witness :
    (exAdd.params.map Param.name).Nodup ∧
    bindCall exAddW.func.params [Value.vint 3] [] = .ok [("x", Value.vint 3)] ∧
    lookupVal [("x", Value.vint 3)] "y" = none ∧
    load_arguments exAddW [Value.vint 3] [] =
      load_arguments exAddW [Value.vint 3] [("y", Value.vint 0)] ∧
    (lookupVal [("x", Value.vint 3), ("y", Value.vint 0), ("z", Value.vint 1)] "y" =
        some (Value.vint 0) ∧
     lookupVal [("x", Value.vint 3), ("y", Value.vint 0), ("z", Value.vint 1)] "y" =
       lookupVal [("x", Value.vint 3), ("y", Value.vint 0), ("z", Value.vint 1)] "y") :=
  ⟨by decide, by decide, by decide,
   (c9_defaults_schema_converted exAdd false exAddW (by decide) rfl
     ⟨"y", .posOrKw, some (.vint 0), some .fInt⟩ (by decide) (Value.vint 0) rfl
     (by decide) [Value.vint 3] [] [("x", Value.vint 3)] (by decide) (by decide)).1,
   (c9_defaults_schema_converted exAdd false exAddW (by decide) rfl
     ⟨"y", .posOrKw, some (.vint 0), some .fInt⟩ (by decide) (Value.vint 0) rfl
     (by decide) [Value.vint 3] [] [("x", Value.vint 3)] (by decide) (by decide)).2
     [("x", Value.vint 3), ("y", Value.vint 0), ("z", Value.vint 1)]
     [("x", Value.vint 3), ("y", Value.vint 0), ("z", Value.vint 1)]
     [("x", Value.vint 3), ("y", Value.vint 0), ("z", Value.vint 1)]
     [("x", Value.vint 3), ("y", Value.vint 0), ("z", Value.vint 1)]
     (by decide) (by decide) (by decide)⟩

/-- C6 counterexample: decorating a function whose variadic parameter
`*args` is unannotated raises the missing-annotation `TypeError`, whose
message does not name the parameter kind — the annotation check runs
before the kind check. -/
theorem c6_counterexample :
    mkDatafunction exVarUnann false =
      .error (.typeError "Missing annotation for args in function vfu") ∧
    ¬ List.IsInfix "VAR_POSITIONAL".data
        "Missing annotation for args in function vfu".data := by
  constructor
  · rfl
  · decide

/-- C6 (amended): construction-time validation raises plain
`TypeError`s directly (never wrapped in the call-time error kinds): a
missing annotation on the first unannotated hinted name or return slot
raises the missing-annotation error naming that slot, and — when every
hinted name and the return slot are annotated — a hinted parameter of
variadic or positional-only kind raises the kind error naming the
parameter and its kind. -/
theorem c6_construction_type_errors (f : PyFunc) (m : Bool) (hn : List String)
    (hhn : hintedNamesOf f m = .ok hn) :
    (∀ n0, (hn ++ ["return"]).find? (fun n => (hintsLookup f n).isNone) = some n0 →
      mkDatafunction f m =
        .error (.typeError ("Missing annotation for " ++ n0 ++ " in function " ++ f.name))) ∧
    ((∀ n ∈ hn ++ ["return"], (hintsLookup f n).isSome) →
      ∀ p0, (f.params.filter (fun p => hn.contains p.name)).find?
          (fun p => ¬ allowedKind p.kind) = some p0 →
      mkDatafunction f m =
        .error (.typeError ("Parameter " ++ p0.name ++ " in function " ++ f.name ++
          " is of invalid kind: " ++ p0.kind.pyName))) := by
  constructor
  · intro n0 hfind
    simp only [mkDatafunction, hhn, hfind]
  · intro hall p0 hfind
    have hnone : (hn ++ ["return"]).find? (fun n => (hintsLookup f n).isNone) = none := by
      rw [List.find?_eq_none]
      intro n hnmem
      have := hall n hnmem
      simp [Option.isNone_iff_eq_none]
      exact Option.ne_none_iff_isSome.2 this
    simp only [mkDatafunction, hhn, hnone, hfind]

theorem c6_witness :
    mkDatafunction exVarUnann false =
      .error (.typeError "Missing annotation for args in function vfu") ∧
    mkDatafunction exVarAnn false =
      .error (.typeError
        "Parameter args in function vf is of invalid kind: VAR_POSITIONAL") := by
  constructor
  · exact (c6_construction_type_errors exVarUnann false ["args"] rfl).1 "args" (by decide)
  · exact (c6_construction_type_errors exVarAnn false ["args"] rfl).2 (by decide)
      ⟨"args", .varPos, none, some .fInt⟩ (by decide)

/-- With every remaining parameter named in the keyword arguments and
of non-variadic, non-positional-only kind, the keyword phase binds each
in declaration order. -/
theorem bindKw_all_bound (data : List (String × Value)) :
    ∀ (ps : List Param),
    (∀ q ∈ ps, (lookupVal data q.name).isSome) →
    (∀ q ∈ ps, q.kind = .posOrKw ∨ q.kind = .kwOnly) →
    bindKw ps data =
      .ok (ps.map (fun q => (q.name, (lookupVal data q.name).getD Value.vnone)),
           ps.map Param.name) := by
  intro ps
  induction ps with
  | nil => intro _ _; rfl
  | cons q rest ih =>
      intro hsome hkinds
      obtain ⟨v, hv⟩ := Option.isSome_iff_exists.1 (hsome q (by simp))
      have hrest := ih (fun q2 hq2 => hsome q2 (by simp [hq2]))
        (fun q2 hq2 => hkinds q2 (by simp [hq2]))
      simp only [bindKw]
      rcases hkinds q (by simp) with hk | hk <;> rw [hk] <;> dsimp only <;>
        rw [hv] <;> dsimp only <;> rw [hrest] <;> simp [hv]

/-- With every parameter bound, `apply_defaults` is the per-parameter
lookup mapping. -/
theorem applyDefaults_all_bound (bound : List (String × Value)) :
    ∀ (ps : List Param),
    (∀ q ∈ ps, (lookupVal bound q.name).isSome) →
    applyDefaults ps bound =
      ps.map (fun q => (q.name, (lookupVal bound q.name).getD Value.vnone)) := by
  intro ps
  induction ps with
  | nil => intro _; rfl
  | cons q rest ih =>
      intro hsome
      obtain ⟨v, hv⟩ := Option.isSome_iff_exists.1 (hsome q (by simp))
      have hrest := ih (fun q2 hq2 => hsome q2 (by simp [hq2]))
      simp only [applyDefaults, List.filterMap_cons, hv] at hrest ⊢
      rw [hrest]
      simp [hv]

/-- When every bound name is hinted, the merged mapping is exactly the
loaded record. -/
theorem replaceHinted_eq_recd (all recd : List (String × Value)) (hn : List String)
    (hallk : all.map Prod.fst = hn) (hrk : recd.map Prod.fst = hn)
    (hnd : hn.Nodup) :
    replaceHinted all hn recd = recd := by
  have hpt : ∀ kv ∈ all, (if kv.1 ∈ hn then (kv.1, (lookupVal recd kv.1).getD kv.2) else kv)
      = (kv.1, (lookupVal recd kv.1).getD Value.vnone) := by
    intro kv hkv
    have hmem : kv.1 ∈ hn := hallk ▸ List.mem_map_of_mem Prod.fst hkv
    have hsome : (lookupVal recd kv.1).isSome := by
      rw [lookupVal_isSome_iff, hrk]
      exact hmem
    obtain ⟨v, hv⟩ := Option.isSome_iff_exists.1 hsome
    rw [if_pos hmem, hv]
    simp
  unfold replaceHinted
  rw [List.map_congr_left hpt]
  have hmaps : all.map (fun kv => ((kv.1, (lookupVal recd kv.1).getD Value.vnone) : String × Value))
      = (all.map Prod.fst).map (fun n => (n, (lookupVal recd n).getD Value.vnone)) := by
    rw [List.map_map]
    rfl
  rw [hmaps, hallk, ← hrk]
  exact map_lookup_self recd (by rw [hrk]; exact hnd)

theorem dump_result_single (w : Wrapper) (ft : FieldType)
    (hrf : w.returnField = some ft) (v dv : Value)
    (hfd : fieldDump ft v = .ok dv) : dump_result w v = .ok dv := by
  simp only [dump_result, hrf]
  have h1 : schemaDump [("_return", ft)] [("_return", v)] = .ok [("_return", dv)] := by
    simp [schemaDump, hfd]
  rw [h1]
  simp

theorem load_result_single (w : Wrapper) (ft : FieldType)
    (hrf : w.returnField = some ft) (v sv : Value)
    (hfl : fieldLoad ft v = .ok sv) : load_result w v = .ok sv := by
  simp only [load_result, hrf]
  have h1 : schemaLoad [("_return", ft)] [("_return", v)] = .ok [("_return", sv)] := by
    simp [schemaLoad, loadFields, hfl]
  rw [h1]
  simp [getattrRec]

/-- C5 counterexample: the raw argument tuple `("3", "2", "5")` is
acceptable to the parameter schema (the call loads), but dumping the
loaded arguments yields integers, not the original raw mapping of
numeric strings — the argument round trip fails as stated. -/
theorem c5_counterexample :
    load_arguments exAddW [Value.vstr "3", Value.vstr "2", Value.vstr "5"] [] =
      .ok [("x", Value.vint 3), ("y", Value.vint 2), ("z", Value.vint 5)] ∧
    dump_arguments exAddW []
        [("x", Value.vint 3), ("y", Value.vint 2), ("z", Value.vint 5)] =
      .ok [("x", Value.vint 3), ("y", Value.vint 2), ("z", Value.vint 5)] ∧
    arguments_dicts exAddW [Value.vstr "3", Value.vstr "2", Value.vstr "5"] [] =
      .ok ([("x", Value.vstr "3"), ("y", Value.vstr "2"), ("z", Value.vstr "5")],
           [("x", Value.vstr "3"), ("y", Value.vstr "2"), ("z", Value.vstr "5")]) ∧
    [("x", Value.vint 3), ("y", Value.vint 2), ("z", Value.vint 5)] ≠
      [("x", Value.vstr "3"), ("y", Value.vstr "2"), ("z", Value.vstr "5")] :=
  ⟨by decide, by decide, by decide, by decide⟩

/-- C5 (amended): for simple types, `load_result (dump_result x) = x`
for structurally valid `x`; and the argument round trip — dumping the
mapping produced by `load_arguments` — reproduces the original raw
(hinted) mapping for raw arguments acceptable to the schema that are
already in canonical serialized form (dumping the loaded record
reproduces them). -/
theorem c5_roundtrips (f : PyFunc) (w : Wrapper)
    (hnd : (f.params.map Param.name).Nodup)
    (hw : mkDatafunction f false = .ok w) :
    (∀ ft x y, w.returnField = some ft → structurallyValid ft x →
      dump_result w x = .ok y → load_result w y = .ok x) ∧
    (∀ args kwargs hinted all recd loaded,
      arguments_dicts w args kwargs = .ok (hinted, all) →
      schemaLoad w.paramsFields hinted = .ok recd →
      schemaDump w.paramsFields recd = .ok hinted →
      load_arguments w args kwargs = .ok loaded →
      dump_arguments w [] loaded = .ok hinted) := by
  obtain ⟨hfunc, _, hhn, hcf, _, hkinds, _⟩ := mk_ok_elim f false w hw
  constructor
  · intro ft x y hrf hvalid hdmp
    have hfd : fieldDump ft x = .ok x ∧ fieldLoad ft x = .ok x := by
      cases ft <;> cases x <;> simp [structurallyValid] at hvalid <;>
        simp [fieldDump, fieldLoad, pyStr]
    have hd2 := dump_result_single w ft hrf x x hfd.1
    rw [hd2] at hdmp
    simp only [Except.ok.injEq] at hdmp
    subst hdmp
    exact load_result_single w ft hrf x x hfd.2
  · intro args kwargs hinted all recd loaded hd hl hdump hla
    -- names: with is_method false every declared parameter is hinted
    have hnlist : w.hinted_names = w.func.params.map Param.name := by
      simp only [hintedNamesOf] at hhn
      simp at hhn
      rw [← hhn, hfunc]
    have hndw : (w.func.params.map Param.name).Nodup := by rw [hfunc]; exact hnd
    have hhnd : w.hinted_names.Nodup := by rw [hnlist]; exact hndw
    have hallowed : ∀ q ∈ w.func.params, allowedKind q.kind := by
      intro q hq
      rw [hfunc] at hq
      exact hkinds q hq (by rw [hnlist, hfunc]; exact List.mem_map_of_mem Param.name hq)
    -- keys of the full bound mapping
    obtain ⟨bound, hb, hall, hlall⟩ := arguments_dicts_elim w args kwargs hinted all hd
    have hcov := bindCall_ok_covers w.func.params args kwargs bound hb
    have hallkeys : all.map Prod.fst = w.hinted_names := by
      rw [hall, hnlist]
      exact applyDefaults_keys w.func.params bound hcov
    have hrk : recd.map Prod.fst = w.hinted_names := recd_keys f false w hw hinted recd hl
    -- the loaded mapping is exactly the loaded record
    have hcore := load_arguments_core_ok f false w hnd hw args kwargs hinted all recd hd hl
    have hloaded : loaded = recd := by
      have hx := hla
      rw [load_arguments, hcore] at hx
      simp only [Except.ok.injEq] at hx
      rw [← hx]
      exact replaceHinted_eq_recd all recd w.hinted_names hallkeys hrk hhnd
    rw [hloaded]
    -- now bind the loaded record as pure keyword arguments
    have hlsome : ∀ q ∈ w.func.params, (lookupVal recd q.name).isSome := by
      intro q hq
      rw [lookupVal_isSome_iff, hrk, hnlist]
      exact List.mem_map_of_mem Param.name hq
    have hkw := bindKw_all_bound recd w.func.params hlsome
      (fun q hq => allowedKind_elim q.kind (hallowed q hq))
    have hmapeq : w.func.params.map
        (fun q => ((q.name, (lookupVal recd q.name).getD Value.vnone) : String × Value)) = recd := by
      have h1 : w.func.params.map
          (fun q => ((q.name, (lookupVal recd q.name).getD Value.vnone) : String × Value))
          = (w.func.params.map Param.name).map
            (fun n => (n, (lookupVal recd n).getD Value.vnone)) := by
        rw [List.map_map]
        rfl
      rw [h1, ← hnlist, ← hrk]
      exact map_lookup_self recd (by rw [hrk]; exact hhnd)
    have hbc2 : bindCall w.func.params [] recd = .ok recd := by
      simp only [bindCall]
      have hpos0 : bindPos w.func.params [] recd = .ok ([], w.func.params) := by
        cases w.func.params with
        | nil => rfl
        | cons a l => rfl
      rw [hpos0]
      dsimp only
      rw [hkw]
      dsimp only
      have hfind0 : recd.find?
          (fun kv => ¬ (w.func.params.map Param.name).contains kv.1) = none := by
        rw [List.find?_eq_none]
        intro kv hkv
        have : kv.1 ∈ w.func.params.map Param.name := by
          rw [← hnlist, ← hrk]
          exact List.mem_map_of_mem Prod.fst hkv
        simpa using this
      rw [hfind0]
      rw [hmapeq]
      simp
    have hAD2 : applyDefaults w.func.params recd = recd := by
      rw [applyDefaults_all_bound recd w.func.params hlsome]
      exact hmapeq
    have hlall2 : lookupAll recd w.hinted_names = .ok recd := by
      rw [lookupAll_total recd w.hinted_names (by
        intro n hn
        rw [lookupVal_isSome_iff, hrk]
        exact hn)]
      rw [← hrk]
      rw [map_lookup_self recd (by rw [hrk]; exact hhnd)]
    have hdicts2 : arguments_dicts w [] recd = .ok (recd, recd) := by
      simp only [arguments_dicts, hbc2, hAD2, hlall2]
    simp only [dump_arguments, hdicts2, hdump]

theorem c5_witness :
    structurallyValid FieldType.fInt (Value.vint 5) ∧
    dump_result exAddW (Value.vint 5) = .ok (Value.vint 5) ∧
    load_result exAddW (Value.vint 5) = .ok (Value.vint 5) ∧
    schemaDump exAddW.paramsFields
        [("x", Value.vint 3), ("y", Value.vint 2), ("z", Value.vint 5)] =
      .ok [("x", Value.vint 3), ("y", Value.vint 2), ("z", Value.vint 5)] ∧
    dump_arguments exAddW []
        [("x", Value.vint 3), ("y", Value.vint 2), ("z", Value.vint 5)] =
      .ok [("x", Value.vint 3), ("y", Value.vint 2), ("z", Value.vint 5)] :=
  ⟨by decide, by decide,
   (c5_roundtrips exAdd exAddW (by decide) rfl).1 FieldType.fInt (Value.vint 5)
     (Value.vint 5) rfl (by decide) (by decide),
   by decide,
   (c5_roundtrips exAdd exAddW (by decide) rfl).2
     [Value.vint 3, Value.vint 2, Value.vint 5] []
     [("x", Value.vint 3), ("y", Value.vint 2), ("z", Value.vint 5)]
     [("x", Value.vint 3), ("y", Value.vint 2), ("z", Value.vint 5)]
     [("x", Value.vint 3), ("y", Value.vint 2), ("z", Value.vint 5)]
     [("x", Value.vint 3), ("y", Value.vint 2), ("z", Value.vint 5)]
     (by decide) (by decide) (by decide) (by decide)⟩

end Datafunctions
